import Mathlib

/-!
Verification of the Meeting-Transcriber response-parsing and
document-formatting pipeline.

The Python sources are embedded shallowly: text is `List Char`, Python
string methods and the concrete regular expressions used by the code are
implemented as executable Lean functions with the same observable
behaviour, and the two pipeline entry points `parse_bedrock_response`
(summarizer_bedrock.py) and `format_enhanced_meeting_notes`
(format_meeting_notes.py) are reproduced definition by definition.
`datetime` values that the Python code renders (meeting date, generation
timestamp) are passed in as already-formatted strings, since they are
I/O, not logic.
-/

/-- Text is modelled as a list of characters. -/
abbrev Str := List Char

/-- Python's whitespace class for `str.strip` and the regex class for
a blank: space, tab, newline, carriage return, vertical tab, form feed. -/
def isWsChar (c : Char) : Bool :=
  c = ' ' || c = '\t' || c = '\n' || c = '\r' || c = '\x0b' || c = '\x0c'

/-- Python `str.lower` restricted to ASCII, which is all the pipeline uses. -/
def lowerStr (l : Str) : Str := l.map Char.toLower

/-- Drop trailing whitespace (Python `str.rstrip`). -/
def dropTrailWs (l : Str) : Str := (l.reverse.dropWhile isWsChar).reverse

/-- Python `str.strip`. -/
def stripStr (l : Str) : Str := dropTrailWs (l.dropWhile isWsChar)

/-- Python `str.rstrip(':')`. -/
def rstripColon (l : Str) : Str := (l.reverse.dropWhile (fun c => decide (c = ':'))).reverse

/-- Python `str.split('\n')`: split at every newline, keeping empty pieces. -/
def splitNl : Str → List Str
  | [] => [[]]
  | c :: t =>
    if c = '\n' then [] :: splitNl t
    else
      match splitNl t with
      | p :: ps => (c :: p) :: ps
      | [] => [[c]]

/-- Python `str.split('\n\n')`: split at each non-overlapping occurrence of
a double newline, scanning left to right. -/
def splitPara : Str → List Str
  | [] => [[]]
  | [c] => [[c]]
  | c1 :: c2 :: t =>
    if c1 = '\n' ∧ c2 = '\n' then [] :: splitPara t
    else
      match splitPara (c2 :: t) with
      | p :: ps => (c1 :: p) :: ps
      | [] => [[c1]]

/-- Python `'\n'.join`. -/
def joinNl (ls : List Str) : Str := List.intercalate ['\n'] ls

/-- Look up a key in an association list used as a Python dict. -/
def lookupDict {β : Type} (m : List (Str × β)) (k : Str) : Option β :=
  (m.find? (fun p => decide (p.1 = k))).map (fun p => p.2)

/-- Python `d[k] = v`: overwrite in place if the key exists (dicts keep the
original insertion position on overwrite), otherwise append. -/
def dictInsert {β : Type} (m : List (Str × β)) (k : Str) (v : β) : List (Str × β) :=
  if (m.find? (fun p => decide (p.1 = k))).isSome then
    m.map (fun p => if p.1 = k then (k, v) else p)
  else m ++ [(k, v)]

/-- Python `d.setdefault(k, []).append(v)` as done by the categorizers:
append `v` to the list stored at `k`, creating the key at the end on first use. -/
def dictAppend (m : List (Str × List Str)) (k : Str) (v : Str) : List (Str × List Str) :=
  if (m.find? (fun p => decide (p.1 = k))).isSome then
    m.map (fun p => if p.1 = k then (k, p.2 ++ [v]) else p)
  else m ++ [(k, [v])]

/-- Match a literal at the head of the text, returning the remainder. -/
def dropLit : Str → Str → Option Str
  | [], l => some l
  | _ :: _, [] => none
  | p :: ps, c :: cs => if c = p then dropLit ps cs else none

/-- Substring test (Python `in`), true for the empty pattern. -/
def containsSub (l pat : Str) : Bool := decide (pat <:+: l)

/-- A line is a markdown heading when it matches `^#+\s+`: one or more
hashes followed by a whitespace character (summarizer_bedrock.py:348). -/
def isHeadingLine (l : Str) : Bool :=
  decide (l.takeWhile (fun c => decide (c = '#')) ≠ []) &&
    (match l.dropWhile (fun c => decide (c = '#')) with
     | c :: _ => isWsChar c
     | [] => false)

/-- `re.sub(r'^#+\s+', '', line).strip()` on a heading line: drop the hash
run, the greedy whitespace run, and strip (summarizer_bedrock.py:355). -/
def headingName (l : Str) : Str :=
  stripStr ((l.dropWhile (fun c => decide (c = '#'))).dropWhile isWsChar)

/-- Python truthiness of the `current_section` variable: a string is falsy
when it is `None` or empty. -/
def optTruthy : Option Str → Bool
  | none => false
  | some s => decide (s ≠ [])

/-- The section-splitting loop of `parse_bedrock_response`
(summarizer_bedrock.py:342-362): walk the lines, a heading line saves the
previous section (when a truthy section name and nonempty content exist)
under its lower-cased name and starts a new one; other lines accumulate
only when a truthy section name is active. -/
def sectionsFold : List Str → List (Str × Str) → Option Str → List Str → List (Str × Str)
  | [], secs, cs, cc =>
    if optTruthy cs ∧ cc ≠ [] then
      dictInsert secs (lowerStr (cs.getD [])) (stripStr (joinNl cc))
    else secs
  | l :: ls, secs, cs, cc =>
    if isHeadingLine l then
      if optTruthy cs ∧ cc ≠ [] then
        sectionsFold ls (dictInsert secs (lowerStr (cs.getD [])) (stripStr (joinNl cc)))
          (some (headingName l)) []
      else
        sectionsFold ls secs (some (headingName l)) cc
    else
      if optTruthy cs then sectionsFold ls secs cs (cc ++ [l])
      else sectionsFold ls secs cs cc

/-- Sections of a completion: lower-cased heading name to body. -/
def splitSections (text : Str) : List (Str × Str) :=
  sectionsFold (splitNl text) [] none []

/-- A line opens a markdown subsection when it matches `^###\s+`
(summarizer_bedrock.py:381,435). -/
def isSubHeading (l : Str) : Bool :=
  match l with
  | '#' :: '#' :: '#' :: c :: _ => isWsChar c
  | _ => false

/-- `re.sub(r'^###\s+', '', line).strip()` on a subsection heading. -/
def subHeadingName (l : Str) : Str :=
  stripStr ((l.drop 3).dropWhile isWsChar)

/-- A stripped line is an inline label when it matches `^[A-Za-z\s]+:`:
a nonempty run of letters and whitespace followed by a colon
(summarizer_bedrock.py:389,443). -/
def isInlineLabel (s : Str) : Bool :=
  let run := s.takeWhile (fun c => c.isAlpha || isWsChar c)
  decide (run ≠ []) &&
    (match s.dropWhile (fun c => c.isAlpha || isWsChar c) with
     | c :: _ => decide (c = ':')
     | [] => false)

/-- The subsection-splitting loop shared by the key-takeaways and
action-items blocks (summarizer_bedrock.py:374-403,427-457): `###`
headings or inline `Label:` lines open a new subsection; content before
the first label belongs to the reserved "General" subsection. -/
def subsectionsFold : List Str → List (Str × Str) → Str → List Str → List (Str × Str)
  | [], subs, cur, cc =>
    if cc ≠ [] then dictInsert subs cur (stripStr (joinNl cc)) else subs
  | l :: ls, subs, cur, cc =>
    if isSubHeading l then
      if cc ≠ [] then
        subsectionsFold ls (dictInsert subs cur (stripStr (joinNl cc))) (subHeadingName l) []
      else subsectionsFold ls subs (subHeadingName l) cc
    else if isInlineLabel (stripStr l) then
      if cc ≠ [] then
        subsectionsFold ls (dictInsert subs cur (stripStr (joinNl cc))) (stripStr l) []
      else subsectionsFold ls subs (stripStr l) cc
    else subsectionsFold ls subs cur (cc ++ [l])

/-- Subsections of a section body, in insertion order. -/
def splitSubsections (body : Str) : List (Str × Str) :=
  subsectionsFold (splitNl body) [] ("General".toList) []


theorem length_dropWhile_le_my (p : Char → Bool) (l : Str) :
    (l.dropWhile p).length ≤ l.length := by
  induction l with
  | nil => simp [List.dropWhile]
  | cons c t ih =>
    rw [List.dropWhile_cons]
    split
    · exact Nat.le_succ_of_le ih
    · simp

/-- Bullet markers recognized by the extractors: `-`, `•`, `*`. -/
def isBulletChar (c : Char) : Bool := c = '-' || c = '•' || c = '*'

/-- Stop position of the lazy capture in
`[-•*]\s+(.*?)(?=\n[-•*]|\n\n|$)` (with DOTALL): the lookahead holds at a
newline followed by a bullet marker, at a blank line, or at the end
anchor, which in Python also matches just before a final newline. -/
def bulStop (post : Str) : Bool :=
  match post with
  | [] => true
  | ['\n'] => true
  | '\n' :: c :: _ => isBulletChar c || c = '\n'
  | _ => false

/-- Split at the earliest position satisfying `bulStop`; the first
component is the lazy capture, the second the remaining text. -/
def lazySplitBul : Str → Str × Str
  | [] => ([], [])
  | l@(c :: t) =>
    if bulStop l then ([], l)
    else
      let s := lazySplitBul t
      (c :: s.1, s.2)

theorem lazySplitBul_len (l : Str) : (lazySplitBul l).2.length ≤ l.length := by
  induction l with
  | nil => simp [lazySplitBul]
  | cons c t ih =>
    simp only [lazySplitBul]
    split
    · simp
    · simpa using Nat.le_succ_of_le ih

theorem bulStep_lt (a b : Char) (t2 : Str) :
    (lazySplitBul (t2.dropWhile isWsChar)).2.length < (a :: b :: t2).length := by
  have h1 := lazySplitBul_len (t2.dropWhile isWsChar)
  have h2 := length_dropWhile_le_my isWsChar t2
  simp only [List.length_cons]
  omega

/-- Fuel-bounded scanning loop of `findBullets`. -/
def findBulletsF : Nat → Str → List Str
  | 0, _ => []
  | _ + 1, [] => []
  | fuel + 1, c :: t =>
    if isBulletChar c then
      match t with
      | c2 :: t2 =>
        if isWsChar c2 then
          (lazySplitBul (t2.dropWhile isWsChar)).1 ::
            findBulletsF fuel (lazySplitBul (t2.dropWhile isWsChar)).2
        else findBulletsF fuel (c2 :: t2)
      | [] => []
    else findBulletsF fuel t

/-- `re.findall(r'[-•*]\s+(.*?)(?=\n[-•*]|\n\n|$)', body, re.DOTALL)`
(summarizer_bedrock.py:408,418,527): scan for a bullet marker followed by
at least one whitespace character, swallow the greedy whitespace run,
lazily capture up to the lookahead, and continue scanning after the
capture.  The fuel starts at the text length and every step consumes at
least one character, so it never runs out. -/
def findBullets (l : Str) : List Str := findBulletsF l.length l

/-- Does the text start with `\d+\.`: a nonempty digit run and a dot? -/
def numMarker (l : Str) : Bool :=
  decide (l.takeWhile Char.isDigit ≠ []) &&
    (match l.dropWhile Char.isDigit with
     | c :: _ => decide (c = '.')
     | [] => false)

/-- Stop position of the lazy capture in
`(?:[-•*]|\d+\.)\s+(.*?)(?=\n(?:[-•*]|\d+\.|\n)|$)`. -/
def itemStop (post : Str) : Bool :=
  match post with
  | [] => true
  | ['\n'] => true
  | '\n' :: (r@(c :: _)) => isBulletChar c || c = '\n' || numMarker r
  | _ => false

/-- Split at the earliest position satisfying `itemStop`. -/
def lazySplitItem : Str → Str × Str
  | [] => ([], [])
  | l@(c :: t) =>
    if itemStop l then ([], l)
    else
      let s := lazySplitItem t
      (c :: s.1, s.2)

theorem lazySplitItem_len (l : Str) : (lazySplitItem l).2.length ≤ l.length := by
  induction l with
  | nil => simp [lazySplitItem]
  | cons c t ih =>
    simp only [lazySplitItem]
    split
    · simp
    · simpa using Nat.le_succ_of_le ih

theorem itemStepBul_lt (a b : Char) (t2 : Str) :
    (lazySplitItem (t2.dropWhile isWsChar)).2.length < (a :: b :: t2).length := by
  have h1 := lazySplitItem_len (t2.dropWhile isWsChar)
  have h2 := length_dropWhile_le_my isWsChar t2
  simp only [List.length_cons]
  omega

theorem itemStepNum_lt (c : Char) (t t2 : Str) (c2 : Char)
    (h : List.dropWhile Char.isDigit (c :: t) = '.' :: c2 :: t2) :
    (lazySplitItem (t2.dropWhile isWsChar)).2.length < (c :: t).length := by
  have h1 := lazySplitItem_len (t2.dropWhile isWsChar)
  have h2 := length_dropWhile_le_my isWsChar t2
  have h3 := length_dropWhile_le_my Char.isDigit (c :: t)
  rw [h] at h3
  simp only [List.length_cons] at h3 ⊢
  omega

/-- Fuel-bounded scanning loop of `findItems`. -/
def findItemsF : Nat → Str → List Str
  | 0, _ => []
  | _ + 1, [] => []
  | fuel + 1, c :: t =>
    if isBulletChar c then
      match t with
      | c2 :: t2 =>
        if isWsChar c2 then
          (lazySplitItem (t2.dropWhile isWsChar)).1 ::
            findItemsF fuel (lazySplitItem (t2.dropWhile isWsChar)).2
        else findItemsF fuel (c2 :: t2)
      | [] => []
    else if numMarker (c :: t) then
      match (c :: t).dropWhile Char.isDigit with
      | '.' :: c2 :: t2 =>
        if isWsChar c2 then
          (lazySplitItem (t2.dropWhile isWsChar)).1 ::
            findItemsF fuel (lazySplitItem (t2.dropWhile isWsChar)).2
        else findItemsF fuel t
      | _ => findItemsF fuel t
    else findItemsF fuel t

/-- `re.findall(r'(?:[-•*]|\d+\.)\s+(.*?)(?=\n(?:[-•*]|\d+\.|\n)|$)', body,
re.DOTALL)` (summarizer_bedrock.py:462,472,482,492,502,512): like
`findBullets` but an item may also start with a numbered `\d+\.` marker.
The fuel starts at the text length and every step consumes at least one
character, so it never runs out. -/
def findItems (l : Str) : List Str := findItemsF l.length l

/-- The character class `[^,)]`. -/
def notCommaParen (c : Char) : Bool := !(c = ',' || c = ')')

/-- The deadline part `,\s*Deadline:\s*([^)]+)\)` attempted after the owner
capture stopped at a comma; returns the raw deadline group and the text
after the closing parenthesis.  When the greedy `[^)]+` would be empty the
engine backtracks one whitespace character out of `\s*` into the group. -/
def tryDeadline (r : Str) : Option (Str × Str) :=
  match dropLit ("Deadline:".toList) (r.dropWhile isWsChar) with
  | none => none
  | some r5 =>
    let ws2 := r5.takeWhile isWsChar
    let rest5 := r5.dropWhile isWsChar
    match rest5.takeWhile (fun c => decide (c ≠ ')')) with
    | [] =>
      match ws2.getLast?, rest5 with
      | some w, ')' :: post => some ([w], post)
      | _, _ => none
    | cap2 =>
      match rest5.dropWhile (fun c => decide (c ≠ ')')) with
      | ')' :: post => some (cap2, post)
      | _ => none

/-- Attempt `\(Owner:\s*([^,)]+)(?:,\s*Deadline:\s*([^)]+))?\)` at the head
of the text (summarizer_bedrock.py:538, format_meeting_notes.py:181).
Returns the raw owner group, the optional raw deadline group, and the text
after the match.  The only backtracking the pattern can perform is giving
one whitespace character of `\s*` back to the `[^,)]+` group when the
greedy group would otherwise be empty. -/
def matchOwnerAt (l : Str) : Option (Str × Option Str × Str) :=
  match dropLit ("(Owner:".toList) l with
  | none => none
  | some r =>
    let ws := r.takeWhile isWsChar
    let rest := r.dropWhile isWsChar
    let finish : Str → Str → Option (Str × Option Str × Str) := fun cap rest2 =>
      match rest2 with
      | ')' :: post => some (cap, none, post)
      | ',' :: r3 =>
        match tryDeadline r3 with
        | some (d, post) => some (cap, some d, post)
        | none => none
      | _ => none
    match rest.takeWhile notCommaParen with
    | [] =>
      match ws.getLast? with
      | some w =>
        match rest with
        | (',' :: _) => finish [w] rest
        | (')' :: _) => finish [w] rest
        | _ => none
      | none => none
    | cap => finish cap (rest.dropWhile notCommaParen)

/-- `re.search` for the owner/deadline pattern: try every start position,
left to right, returning the two captured groups. -/
def searchOwnerDeadline : Str → Option (Str × Option Str)
  | [] => none
  | c :: t =>
    match matchOwnerAt (c :: t) with
    | some (g1, g2, _) => some (g1, g2)
    | none => searchOwnerDeadline t

/-- Attempt the simpler `\(Owner:\s*([^)]+)\)` (format_meeting_notes.py:182)
at the head of the text. -/
def matchOwnerSimpleAt (l : Str) : Option Str :=
  match dropLit ("(Owner:".toList) l with
  | none => none
  | some r =>
    let ws := r.takeWhile isWsChar
    let rest := r.dropWhile isWsChar
    match rest.takeWhile (fun c => decide (c ≠ ')')) with
    | [] =>
      match ws.getLast?, rest with
      | some w, ')' :: _ => some [w]
      | _, _ => none
    | cap =>
      match rest.dropWhile (fun c => decide (c ≠ ')')) with
      | ')' :: _ => some cap
      | _ => none

/-- `re.search(r'\(Owner:\s*([^)]+)\)', item)`. -/
def searchOwnerSimple : Str → Option Str
  | [] => none
  | c :: t =>
    match matchOwnerSimpleAt (c :: t) with
    | some g1 => some g1
    | none => searchOwnerSimple t

/-- Attempt `\s*\(Owner:.*?\)` at the head of the text: a greedy
whitespace run, the literal, then a lazy run of non-newline characters up
to the first closing parenthesis (the pattern is used without DOTALL, so
the dot does not cross newlines).  Returns the text after the match; the
capture-free match is all `re.sub` needs, since it replaces with the
empty string. -/
def lazyClose (r2 : Str) : Option Str :=
  match r2.dropWhile (fun c => decide (c ≠ ')' ∧ c ≠ '\n')) with
  | ')' :: post => some post
  | _ => none

def subMatchAt (l : Str) : Option Str :=
  match dropLit ("(Owner:".toList) (l.dropWhile isWsChar) with
  | none => none
  | some r2 => lazyClose r2

theorem dropLit_len (p l r : Str) (h : dropLit p l = some r) :
    r.length + p.length = l.length := by
  induction p generalizing l with
  | nil => cases h; simp [dropLit]
  | cons a as ih =>
    cases l with
    | nil => exact absurd h (by simp [dropLit])
    | cons b bs =>
      simp only [dropLit] at h
      split at h
      · have := ih bs h
        simp only [List.length_cons]
        omega
      · exact absurd h (by simp)

theorem lazyClose_len (r2 post : Str) (h : lazyClose r2 = some post) :
    post.length < r2.length := by
  unfold lazyClose at h
  split at h
  · cases h
    rename_i heq
    have h4 := length_dropWhile_le_my (fun c => decide (c ≠ ')' ∧ c ≠ '\n')) r2
    rw [heq] at h4
    simp only [List.length_cons] at h4
    omega
  · exact absurd h (by simp)

theorem subMatchAt_len (l r : Str) (h : subMatchAt l = some r) :
    r.length < l.length := by
  unfold subMatchAt at h
  split at h
  · exact absurd h (by simp)
  · rename_i r2 hd
    have h2 := dropLit_len _ _ _ hd
    have hp : (("(Owner:".toList : Str)).length = 7 := by decide
    have h3 := length_dropWhile_le_my isWsChar l
    have h5 := lazyClose_len r2 r h
    omega

/-- Fuel-bounded scanning loop of `subOwner`. -/
def subOwnerF : Nat → Str → Str
  | 0, l => l
  | _ + 1, [] => []
  | fuel + 1, c :: t =>
    match subMatchAt (c :: t) with
    | some rest => subOwnerF fuel rest
    | none => c :: subOwnerF fuel t

/-- `re.sub(r'\s*\(Owner:.*?\)', '', item)` (summarizer_bedrock.py:541,
format_meeting_notes.py:186,196,221,231): delete every match, scanning
left to right and resuming after each deletion.  The fuel starts at the
text length and every step consumes at least one character, so it never
runs out. -/
def subOwner (l : Str) : Str := subOwnerF l.length l

theorem subOwnerF_irrel (f1 : Nat) : ∀ (f2 : Nat) (l : Str),
    l.length ≤ f1 → l.length ≤ f2 → subOwnerF f1 l = subOwnerF f2 l := by
  induction f1 with
  | zero =>
    intro f2 l h1 _
    have : l = [] := by cases l with
      | nil => rfl
      | cons c t => simp at h1
    subst this
    cases f2 <;> simp [subOwnerF]
  | succ f1 ih =>
    intro f2 l h1 h2
    cases l with
    | nil => cases f2 <;> simp [subOwnerF]
    | cons c t =>
      cases f2 with
      | zero => simp at h2
      | succ f2 =>
        simp only [subOwnerF]
        cases hm : subMatchAt (c :: t) with
        | some rest =>
          have hlt := subMatchAt_len _ _ hm
          simp only [List.length_cons] at h1 h2 hlt
          exact ih f2 rest (by omega) (by omega)
        | none =>
          have : t.length ≤ f1 := by simp only [List.length_cons] at h1; omega
          have : t.length ≤ f2 := by simp only [List.length_cons] at h2; omega
          exact congrArg (c :: ·) (ih f2 t (by omega) (by omega))

theorem subOwner_step_none (c : Char) (t : Str) (h : subMatchAt (c :: t) = none) :
    subOwner (c :: t) = c :: subOwner t := by
  show subOwnerF (c :: t).length (c :: t) = c :: subOwnerF t.length t
  simp only [List.length_cons, subOwnerF, h]

theorem subOwner_step_some (c : Char) (t rest : Str)
    (h : subMatchAt (c :: t) = some rest) : subOwner (c :: t) = subOwner rest := by
  show subOwnerF (c :: t).length (c :: t) = subOwnerF rest.length rest
  simp only [List.length_cons, subOwnerF, h]
  have hlt := subMatchAt_len _ _ h
  simp only [List.length_cons] at hlt
  exact subOwnerF_irrel t.length rest.length rest (by omega) (by omega)

/-- The owner/deadline extraction logic shared verbatim by the action-item
post-processing of `parse_bedrock_response` (summarizer_bedrock.py:534-555)
and the action-item rendering of `format_enhanced_meeting_notes`
(format_meeting_notes.py:181-198,216-233): search for the
`(Owner: ..., Deadline: ...)` annotation; on a match, the clean text is the
item with every `\s*\(Owner:.*?\)` occurrence removed and stripped, the
owner is the stripped first group, and the deadline is the stripped second
group, demoted to absent when it strips to the empty string (both call
sites test the deadline for Python truthiness before using it). -/
def extract_owner_deadline (item : Str) : Str × Option Str × Option Str :=
  match searchOwnerDeadline item with
  | some (g1, g2) =>
    (stripStr (subOwner item), some (stripStr g1),
      match g2 with
      | some s => if stripStr s = [] then none else some (stripStr s)
      | none => none)
  | none => (item, none, none)

/-- The action-item normalization pass of `parse_bedrock_response`
(summarizer_bedrock.py:534-555): re-render the annotation in canonical
form when present, keep the item unchanged otherwise. -/
def processOwnerItem (item : Str) : Str :=
  match extract_owner_deadline item with
  | (txt, some o, some d) =>
    txt ++ (" (Owner: ".toList) ++ o ++ (", Deadline: ".toList) ++ d ++ (")".toList)
  | (txt, some o, none) => txt ++ (" (Owner: ".toList) ++ o ++ (")".toList)
  | (_, none, _) => item

/-- `for key in keys: if key in sections: use sections[key]; break`. -/
def findFirstKey (m : List (Str × Str)) : List Str → Option Str
  | [] => none
  | k :: ks =>
    match lookupDict m k with
    | some v => some v
    | none => findFirstKey m ks

/-- The decisions/technical/cost/risk loops (summarizer_bedrock.py:479-517):
the break sits inside the nonempty test, so a present key whose body yields
no items lets the loop move on to the next key. -/
def firstNonemptyItems (m : List (Str × Str)) : List Str → List Str
  | [] => []
  | k :: ks =>
    match lookupDict m k with
    | some body =>
      match findItems body with
      | [] => firstNonemptyItems m ks
      | items => items
    | none => firstNonemptyItems m ks

/-- Key points gathered from the subsections of the key-takeaways body
(summarizer_bedrock.py:405-414): bullet items of each subsection in
insertion order, prefixed with the bold category (trailing colons
stripped) unless the subsection is "General". -/
def keyPointsFromSubs (subs : List (Str × Str)) : List Str :=
  subs.flatMap (fun sc =>
    let points := findBullets sc.2
    if sc.1 = ("General".toList) then points.map stripStr
    else points.map (fun p =>
      ("**".toList) ++ rstripColon sc.1 ++ ("**: ".toList) ++ stripStr p))

/-- Action items gathered from the subsections of the action-items body
(summarizer_bedrock.py:459-468), using the bullet-or-numbered extractor. -/
def actionsFromSubs (subs : List (Str × Str)) : List Str :=
  subs.flatMap (fun sc =>
    let items := findItems sc.2
    if sc.1 = ("General".toList) then items.map stripStr
    else items.map (fun p =>
      ("**".toList) ++ rstripColon sc.1 ++ ("**: ".toList) ++ stripStr p))

/-- The key-points block (summarizer_bedrock.py:370-422): first key found
among the takeaway headings, subsection pass first, whole-body bullet pass
when the subsection pass produced nothing. -/
def extractKeyPoints (sections : List (Str × Str)) : List Str :=
  match findFirstKey sections [("key takeaways".toList), ("takeaways".toList), ("key points".toList)] with
  | none => []
  | some body =>
    match keyPointsFromSubs (splitSubsections body) with
    | [] => (findBullets body).map stripStr
    | kp => kp

/-- The action-items block (summarizer_bedrock.py:424-476). -/
def extractActionItems (sections : List (Str × Str)) : List Str :=
  match findFirstKey sections [("action items".toList), ("next steps".toList), ("actions".toList), ("tasks".toList)] with
  | none => []
  | some body =>
    match actionsFromSubs (splitSubsections body) with
    | [] => (findItems body).map stripStr
    | ai => ai

/-- The decision items the parser extracts (summarizer_bedrock.py:479-487). -/
def decisionItems (sections : List (Str × Str)) : List Str :=
  firstNonemptyItems sections [("decisions".toList), ("decisions made".toList), ("key decisions".toList)]

/-- Key points after the decisions, technical, cost, and risk sections are
appended with their bold category markers (summarizer_bedrock.py:479-517). -/
def structuredKeyPoints (sections : List (Str × Str)) : List Str :=
  extractKeyPoints sections
    ++ (decisionItems sections).map (fun i => ("**Decision**: ".toList) ++ stripStr i)
    ++ (firstNonemptyItems sections [("technical details".toList), ("technical specifications".toList), ("technical information".toList)]).map
        (fun i => ("**Technical**: ".toList) ++ stripStr i)
    ++ (firstNonemptyItems sections [("cost".toList), ("cost and resource considerations".toList), ("financial considerations".toList)]).map
        (fun i => ("**Cost**: ".toList) ++ stripStr i)
    ++ (firstNonemptyItems sections [("risks".toList), ("risks and issues".toList), ("challenges".toList), ("concerns".toList)]).map
        (fun i => ("**Risk**: ".toList) ++ stripStr i)

/-- The summary block (summarizer_bedrock.py:364-368). -/
def extractSummary (sections : List (Str × Str)) : Str :=
  (findFirstKey sections [("summary".toList), ("meeting summary".toList)]).getD []

/-- First non-empty paragraph used by the no-structure fallback
(summarizer_bedrock.py:521-524). -/
def fallbackSummary (text : Str) : Str :=
  (((splitPara text).filter (fun p => decide (stripStr p ≠ []))).headD [])

/-- `parse_bedrock_response` (summarizer_bedrock.py:322-557): split into
sections, extract summary, categorized key points, and action items; when
all three come back empty fall back to the first non-empty paragraph and
the document-wide bullet scan split at min(10, total) with the following
at most 5 bullets becoming action items; finally normalize the owner
annotations of the action items. -/
def parse_bedrock_response (text : Str) : Str × List Str × List Str :=
  let sections := splitSections text
  let summary := extractSummary sections
  let key_points := structuredKeyPoints sections
  let action_items := extractActionItems sections
  if summary = [] ∧ key_points = [] ∧ action_items = [] then
    let all_bullets := findBullets text
    let split_point := min 10 all_bullets.length
    (fallbackSummary text,
      (all_bullets.take split_point).map stripStr,
      (((all_bullets.drop split_point).take 5).map stripStr).map processOwnerItem)
  else
    (summary, key_points, action_items.map processOwnerItem)

/-- Attempt `re.match(r'\*\*([^*]+)\*\*:\s*(.*)', point)`
(format_meeting_notes.py:70,162): a bold label, `**:`, optional
whitespace, then the rest of the line (the dot does not cross newlines).
Returns the raw groups. -/
def matchBold (p : Str) : Option (Str × Str) :=
  match p with
  | c1 :: c2 :: r =>
    if c1 = '*' ∧ c2 = '*' then
      match r.takeWhile (fun c => decide (c ≠ '*')) with
      | [] => none
      | g1 =>
        match r.dropWhile (fun c => decide (c ≠ '*')) with
        | '*' :: '*' :: ':' :: r2 =>
          some (g1, (r2.dropWhile isWsChar).takeWhile (fun c => decide (c ≠ '\n')))
        | _ => none
    else none
  | _ => none

/-- Attempt `re.match(r'([A-Za-z]+):\s*(.*)', point)`
(format_meeting_notes.py:92): a letters-only label, a colon, optional
whitespace, then the rest of the line. -/
def matchPlain (p : Str) : Option (Str × Str) :=
  match p.takeWhile Char.isAlpha with
  | [] => none
  | g1 =>
    match p.dropWhile Char.isAlpha with
    | c :: r2 =>
      if c = ':' then
        some (g1, (r2.dropWhile isWsChar).takeWhile (fun c2 => decide (c2 ≠ '\n')))
      else none
    | [] => none

/-- Classification of one key point by `format_enhanced_meeting_notes`. -/
inductive KeyPointClass where
  | decision (content : Str)
  | technical (content : Str)
  | cost (content : Str)
  | risk (content : Str)
  | freeform (category content : Str)
  | uncat
deriving DecidableEq

/-- The per-point branch of the key-point loop
(format_meeting_notes.py:68-102): a bold label is routed case-insensitively
to the four reserved buckets or to a free-form category; a plain
letters-only label always becomes a free-form category; otherwise the
point stays uncategorized. -/
def categorize_point (p : Str) : KeyPointClass :=
  match matchBold p with
  | some (g1, g2) =>
    let category := stripStr g1
    let content := stripStr g2
    if lowerStr category = ("decision".toList) then .decision content
    else if lowerStr category = ("technical".toList) then .technical content
    else if lowerStr category = ("cost".toList) then .cost content
    else if lowerStr category = ("risk".toList) then .risk content
    else .freeform category content
  | none =>
    match matchPlain p with
    | some (g1, g2) => .freeform (stripStr g1) (stripStr g2)
    | none => .uncat

/-- Accumulators of the key-point loop, in source order: the free-form
category dict, the four reserved lists, and the uncategorized list. -/
structure PartState where
  categorized : List (Str × List Str)
  decisions : List Str
  technical_details : List Str
  cost_considerations : List Str
  risks_issues : List Str
  uncategorized : List Str
deriving DecidableEq

/-- One iteration of the key-point loop (format_meeting_notes.py:68-102). -/
def applyPoint (st : PartState) (p : Str) : PartState :=
  match categorize_point p with
  | .decision c => { st with decisions := st.decisions ++ [c] }
  | .technical c => { st with technical_details := st.technical_details ++ [c] }
  | .cost c => { st with cost_considerations := st.cost_considerations ++ [c] }
  | .risk c => { st with risks_issues := st.risks_issues ++ [c] }
  | .freeform cat c => { st with categorized := dictAppend st.categorized cat c }
  | .uncat => { st with uncategorized := st.uncategorized ++ [p] }

def partitionGo (st : PartState) : List Str → PartState
  | [] => st
  | p :: ps => partitionGo (applyPoint st p) ps

/-- The whole key-point categorization pass of
`format_enhanced_meeting_notes`. -/
def partitionKeyPoints (key_points : List Str) : PartState :=
  partitionGo ⟨[], [], [], [], [], []⟩ key_points

/-- A participant record as consumed through `.get`
(format_meeting_notes.py:249-251,333): an absent key is `none`, a present
key with an empty value is `some []`. -/
structure Participant where
  nameVal : Option Str
  idVal : Option Str
  roleVal : Option Str
  orgVal : Option Str
deriving DecidableEq

/-- Python truthiness of an optional string value. -/
def pyTruthy : Option Str → Bool
  | none => false
  | some s => decide (s ≠ [])

/-- `p.get('name', p.get('id', d))`. -/
def participantName (d : Str) (p : Participant) : Str :=
  match p.nameVal with
  | some v => v
  | none =>
    match p.idVal with
    | some v => v
    | none => d

/-- `[A-Z]` and `[a-z]` of the ownership patterns. -/
def isUpperChar (c : Char) : Bool := 'A' ≤ c && c ≤ 'Z'
def isLowerChar (c : Char) : Bool := 'a' ≤ c && c ≤ 'z'

/-- Does the text begin with a literal space followed by one of the modal
phrases `will|should|needs to|is going to|has to`? -/
def modalAfter (rest : Str) : Bool :=
  match rest with
  | ' ' :: r =>
    (dropLit ("will".toList) r).isSome || (dropLit ("should".toList) r).isSome ||
    (dropLit ("needs to".toList) r).isSome || (dropLit ("is going to".toList) r).isSome ||
    (dropLit ("has to".toList) r).isSome
  | _ => false

/-- Attempt the capture `[A-Z][a-z]+(?:\s[A-Z][a-z]+)?` at the head of the
text with continuation `cont`: the optional second word is taken greedily,
falling back to the one-word capture when the continuation fails after it. -/
def matchProperName (l : Str) (cont : Str → Bool) : Option Str :=
  match l with
  | c0 :: t0 =>
    if isUpperChar c0 then
      match t0.takeWhile isLowerChar with
      | [] => none
      | r1 =>
        let rest1 := t0.dropWhile isLowerChar
        let withSecond : Option Str :=
          match rest1 with
          | w :: c1 :: t1 =>
            if isWsChar w && isUpperChar c1 then
              match t1.takeWhile isLowerChar with
              | [] => none
              | r2 =>
                if cont (t1.dropWhile isLowerChar) then
                  some (c0 :: r1 ++ w :: c1 :: r2)
                else none
            else none
          | _ => none
        match withSecond with
        | some g => some g
        | none => if cont rest1 then some (c0 :: r1) else none
    else none
  | [] => none

/-- `re.search` for
`([A-Z][a-z]+(?:\s[A-Z][a-z]+)?) (?:will|should|needs to|is going to|has to)`
(format_meeting_notes.py:337). -/
def searchNameModal : Str → Option Str
  | [] => none
  | c :: t =>
    match matchProperName (c :: t) modalAfter with
    | some g => some g
    | none => searchNameModal t

/-- `re.search` for
`(?:assigned to|owned by|responsibility of) ([A-Z][a-z]+(?:\s[A-Z][a-z]+)?)`
(format_meeting_notes.py:338). -/
def searchAssigned : Str → Option Str
  | [] => none
  | c :: t =>
    match
      (match (dropLit ("assigned to ".toList) (c :: t)).orElse
          (fun _ => (dropLit ("owned by ".toList) (c :: t)).orElse
            (fun _ => dropLit ("responsibility of ".toList) (c :: t))) with
       | some r => matchProperName r (fun _ => true)
       | none => none)
    with
    | some g => some g
    | none => searchAssigned t

/-- Case-insensitive mutual-substring test of the pattern loop
(format_meeting_notes.py:347-349). -/
def ownerCompatible (potential name : Str) : Bool :=
  containsSub (lowerStr name) (lowerStr potential) ||
    containsSub (lowerStr potential) (lowerStr name)

/-- The two-pattern loop of `infer_owner_from_text`
(format_meeting_notes.py:342-349): when a pattern matches but no
participant is compatible with the captured name, the loop moves on to
the next pattern. -/
def tryOwnershipPatterns (text : Str) (names : List Str) : Option Str :=
  match
    (match searchNameModal text with
     | some potential => names.find? (ownerCompatible potential)
     | none => none)
  with
  | some n => some n
  | none =>
    match searchAssigned text with
    | some potential => names.find? (ownerCompatible potential)
    | none => none

/-- `infer_owner_from_text` (format_meeting_notes.py:318-356). -/
def infer_owner_from_text (text : Str) (participants : List Participant) : Option Str :=
  if participants = [] then none
  else
    let participant_names :=
      (participants.filter (fun p => pyTruthy p.nameVal || pyTruthy p.idVal)).map
        (participantName [])
    match tryOwnershipPatterns text participant_names with
    | some n => some n
    | none => participant_names.find? (fun n => containsSub text n)

/-- Decimal rendering of the 1-based indices produced by `enumerate`. -/
def natToStr (n : Nat) : Str := Nat.toDigits 10 n

/-- `enumerate(items, 1)`. -/
def enumFrom (i : Nat) : List Str → List (Nat × Str)
  | [] => []
  | x :: xs => (i, x) :: enumFrom (i + 1) xs

/-- Render one action item (format_meeting_notes.py:179-205,214-240):
re-use the extracted owner/deadline annotation when the combined pattern
matches, fall back to the simple `\(Owner: ...\)` pattern, and finally to
owner inference; an inferred falsy owner leaves the line bare. -/
def renderActionLine (participants : List Participant) (iv : Nat × Str) : Str :=
  let i := iv.1
  let item := iv.2
  match extract_owner_deadline item with
  | (txt, some owner, some dl) =>
    natToStr i ++ (". ".toList) ++ txt ++ (" **[Owner: ".toList) ++ owner ++
      (", Deadline: ".toList) ++ dl ++ ("]**\n".toList)
  | (txt, some owner, none) =>
    natToStr i ++ (". ".toList) ++ txt ++ (" **[Owner: ".toList) ++ owner ++ ("]**\n".toList)
  | (_, none, _) =>
    match searchOwnerSimple item with
    | some g1 =>
      natToStr i ++ (". ".toList) ++ stripStr (subOwner item) ++ (" **[Owner: ".toList) ++
        stripStr g1 ++ ("]**\n".toList)
    | none =>
      match infer_owner_from_text item participants with
      | some owner =>
        if owner ≠ [] then
          natToStr i ++ (". ".toList) ++ item ++ (" **[Owner: ".toList) ++ owner ++ ("]**\n".toList)
        else natToStr i ++ (". ".toList) ++ item ++ ("\n".toList)
      | none => natToStr i ++ (". ".toList) ++ item ++ ("\n".toList)

/-- The action-item grouping pass (format_meeting_notes.py:156-173): only
the bold category prefix is recognized here. -/
def partitionActionsGo (catd : List (Str × List Str)) (uncat : List Str) :
    List Str → List (Str × List Str) × List Str
  | [] => (catd, uncat)
  | item :: rest =>
    match matchBold item with
    | some (g1, g2) => partitionActionsGo (dictAppend catd (stripStr g1) (stripStr g2)) uncat rest
    | none => partitionActionsGo catd (uncat ++ [item]) rest

def partitionActions (items : List Str) : List (Str × List Str) × List Str :=
  partitionActionsGo [] [] items

/-- The Action Items section body (format_meeting_notes.py:150-242). -/
def actionSection (action_items : List Str) (participants : List Participant) : Str :=
  if action_items ≠ [] then
    let parts := partitionActions action_items
    ("## Action Items\n\n".toList)
      ++ (parts.1.flatMap (fun cat =>
            ("### ".toList) ++ cat.1 ++ ("\n\n".toList)
              ++ (enumFrom 1 cat.2).flatMap (renderActionLine participants)
              ++ ("\n".toList)))
      ++ (if parts.2 ≠ [] then
            (if parts.1 ≠ [] then ("### Other Action Items\n\n".toList) else [])
              ++ (enumFrom 1 parts.2).flatMap (renderActionLine participants)
              ++ ("\n".toList)
          else [])
  else []

/-- One participant line (format_meeting_notes.py:247-260). -/
def participantLine (p : Participant) : Str :=
  let name := participantName ("Unknown".toList) p
  let role := (p.roleVal).getD []
  let org := (p.orgVal).getD []
  if role ≠ [] ∧ org ≠ [] then
    ("- ".toList) ++ name ++ (" (".toList) ++ role ++ (", ".toList) ++ org ++ (")\n".toList)
  else if role ≠ [] then
    ("- ".toList) ++ name ++ (" (".toList) ++ role ++ (")\n".toList)
  else if org ≠ [] then
    ("- ".toList) ++ name ++ (" (".toList) ++ org ++ (")\n".toList)
  else ("- ".toList) ++ name ++ ("\n".toList)

/-- A numbered `## ...` section that is omitted when empty
(format_meeting_notes.py:121-147). -/
def numberedSection (header : Str) (items : List Str) : Str :=
  if items ≠ [] then
    header ++ (enumFrom 1 items).flatMap
      (fun iv => natToStr iv.1 ++ (". ".toList) ++ iv.2 ++ ("\n".toList)) ++ ("\n".toList)
  else []

/-- `format_enhanced_meeting_notes` (format_meeting_notes.py:23-274).
The two `datetime` renderings are passed in: `date_str` is
`meeting_date.strftime("%B %d, %Y")` and `gen_ts` is
`datetime.now().strftime('%Y-%m-%d at %H:%M:%S')`.  The `transcript`
argument is accepted and, as in the source, never used in the body. -/
def format_enhanced_meeting_notes (transcript summary : Str)
    (key_points action_items : List Str) (participants : List Participant)
    (has_speaker_segments : Bool) (date_str gen_ts : Str) : Str :=
  let _ := transcript
  let st := partitionKeyPoints key_points
  ("# Meeting Notes - ".toList) ++ date_str ++ ("\n\n".toList)
    ++ ("## Summary\n\n".toList) ++ summary ++ ("\n\n".toList)
    ++ ("## Key Takeaways\n\n".toList)
    ++ (st.categorized.flatMap (fun cat =>
          ("### ".toList) ++ cat.1 ++ ("\n\n".toList)
            ++ cat.2.flatMap (fun p => ("- ".toList) ++ p ++ ("\n".toList))
            ++ ("\n".toList)))
    ++ (if st.uncategorized ≠ [] then
          ("### General Points\n\n".toList)
            ++ st.uncategorized.flatMap (fun p => ("- ".toList) ++ p ++ ("\n".toList))
            ++ ("\n".toList)
        else [])
    ++ numberedSection ("## Decisions Made\n\n".toList) st.decisions
    ++ numberedSection ("## Technical Details\n\n".toList) st.technical_details
    ++ numberedSection ("## Cost and Resource Considerations\n\n".toList) st.cost_considerations
    ++ numberedSection ("## Risks and Issues\n\n".toList) st.risks_issues
    ++ actionSection action_items participants
    ++ (if participants ≠ [] then
          ("## Participants\n\n".toList)
            ++ participants.flatMap participantLine ++ ("\n".toList)
        else [])
    ++ ("## Full Transcript\n\n".toList)
    ++ (if has_speaker_segments then
          ("The full transcript with speaker identification is available in the attached file.\n".toList)
        else ("The full transcript is available in the attached file.\n".toList))
    ++ ("\n---\n*Notes generated on ".toList) ++ gen_ts ++ ("*\n".toList)

/-- A transcript token as consumed by `process_speaker_segments`
(aws_transcribe.py:149-175): its `type` string, its `start_time` (present
only on pronunciation tokens), and the `content` of each alternative. -/
structure TransToken where
  typeVal : Str
  startTime : Option Str
  alternatives : List Str
deriving DecidableEq

/-- `word_to_speaker` (aws_transcribe.py:138-142): map each member
start-time of each segment to its speaker label. -/
def buildWordToSpeaker (segments : List (Str × List Str)) : List (Str × Str) :=
  segments.foldl (fun m seg => seg.2.foldl (fun m2 t => dictInsert m2 t seg.1) m) []

/-- The token loop of `process_speaker_segments` (aws_transcribe.py:145-182).
A non-pronunciation token appends its content to a nonempty running
segment; a pronunciation token resolves its speaker (defaulting to
"Unknown"), closes the running segment on a speaker change, otherwise
appends the word with a space; afterwards the token at
`items.index(item) + 1` — the position after the first list element equal
to the current one — appends its content too when it is punctuation. -/
def speakerLoopGo (items : List TransToken) (w2s : List (Str × Str)) :
    List TransToken → Option Str → Str → List (Option Str × Str) → List (Option Str × Str)
  | [], cs, seg, out => if seg ≠ [] then out ++ [(cs, stripStr seg)] else out
  | item :: rest, cs, seg, out =>
    if item.typeVal ≠ ("pronunciation".toList) then
      let seg2 := if seg ≠ [] ∧ item.alternatives ≠ [] then seg ++ item.alternatives.headD [] else seg
      speakerLoopGo items w2s rest cs seg2 out
    else
      let start_time := item.startTime.getD []
      let word := item.alternatives.headD []
      let speaker := (lookupDict w2s start_time).getD ("Unknown".toList)
      let step :=
        if some speaker ≠ cs then
          (some speaker, word, if seg ≠ [] then out ++ [(cs, stripStr seg)] else out)
        else (cs, seg ++ (" ".toList) ++ word, out)
      let next_index := (items.findIdx (fun x => decide (x = item))) + 1
      let nextTok := items.getD next_index ⟨[], none, []⟩
      let seg3 :=
        if next_index < items.length ∧ nextTok.typeVal = ("punctuation".toList) then
          step.2.1 ++ nextTok.alternatives.headD []
        else step.2.1
      speakerLoopGo items w2s rest step.1 seg3 step.2.2

/-- `process_speaker_segments` (aws_transcribe.py:119-187), restricted to
the `speaker_segments` list it builds (the surrounding dict only carries
the untouched full transcript next to it). -/
def process_speaker_segments (items : List TransToken)
    (segments : List (Str × List Str)) : List (Option Str × Str) :=
  speakerLoopGo items (buildWordToSpeaker segments) items none [] []

/-- Modelled from the spec: the no-structure fallback split of the simpler
historical formatter variant (spec §3, §9), which splits the bullet lines
at min(7, total) with an overflow of at most 5 action items.  No file
under src contains this variant; the definition follows the
specification's words. -/
def simpleVariantSplit (bullets : List Str) : List Str × List Str :=
  let split_point := min 7 bullets.length
  (bullets.take split_point, (bullets.drop split_point).take 5)

/-- `key in sections`. -/
def memberKey (m : List (Str × Str)) (k : Str) : Bool :=
  (m.find? (fun p => decide (p.1 = k))).isSome

/-- `sections[key]`: raises `KeyError` on a missing key. -/
def pyGetItem (m : List (Str × Str)) (k : Str) : Except Str Str :=
  match lookupDict m k with
  | some v => .ok v
  | none => .error ("KeyError".toList)

/-- `paragraphs[0]`: raises `IndexError` on an empty list. -/
def pyIndex0 (l : List Str) : Except Str Str :=
  match l with
  | [] => .error ("IndexError".toList)
  | x :: _ => .ok x

/-- Exception-instrumented summary block: every Python subscript raises
instead of defaulting, so that the success of this version certifies that
the guards of the source keep it on the non-raising path. -/
def extractSummaryE (sections : List (Str × Str)) : List Str → Except Str Str
  | [] => .ok []
  | k :: ks =>
    if memberKey sections k then pyGetItem sections k
    else extractSummaryE sections ks

/-- Exception-instrumented key-points block, reading `sections[key]` once
for the subsection pass and, like the source, a second time for the
whole-body fallback. -/
def extractKeyPointsE (sections : List (Str × Str)) : List Str → Except Str (List Str)
  | [] => .ok []
  | k :: ks =>
    if memberKey sections k then do
      let body ← pyGetItem sections k
      match keyPointsFromSubs (splitSubsections body) with
      | [] => do
        let body2 ← pyGetItem sections k
        return (findBullets body2).map stripStr
      | kp => return kp
    else extractKeyPointsE sections ks

/-- Exception-instrumented action-items block. -/
def extractActionItemsE (sections : List (Str × Str)) : List Str → Except Str (List Str)
  | [] => .ok []
  | k :: ks =>
    if memberKey sections k then do
      let body ← pyGetItem sections k
      match actionsFromSubs (splitSubsections body) with
      | [] => do
        let body2 ← pyGetItem sections k
        return (findItems body2).map stripStr
      | ai => return ai
    else extractActionItemsE sections ks

/-- Exception-instrumented decisions/technical/cost/risk loop. -/
def firstNonemptyItemsE (sections : List (Str × Str)) : List Str → Except Str (List Str)
  | [] => .ok []
  | k :: ks =>
    if memberKey sections k then do
      let body ← pyGetItem sections k
      match findItems body with
      | [] => firstNonemptyItemsE sections ks
      | items => return items
    else firstNonemptyItemsE sections ks

/-- Exception-instrumented `parse_bedrock_response`: Python dictionary
subscripts and the fallback's `paragraphs[0]` are modelled as raising
operations guarded exactly as in the source. -/
def parse_bedrock_responseE (text : Str) : Except Str (Str × List Str × List Str) := do
  let sections := splitSections text
  let summary ← extractSummaryE sections [("summary".toList), ("meeting summary".toList)]
  let kp ← extractKeyPointsE sections [("key takeaways".toList), ("takeaways".toList), ("key points".toList)]
  let decs ← firstNonemptyItemsE sections [("decisions".toList), ("decisions made".toList), ("key decisions".toList)]
  let tech ← firstNonemptyItemsE sections [("technical details".toList), ("technical specifications".toList), ("technical information".toList)]
  let cost ← firstNonemptyItemsE sections [("cost".toList), ("cost and resource considerations".toList), ("financial considerations".toList)]
  let risk ← firstNonemptyItemsE sections [("risks".toList), ("risks and issues".toList), ("challenges".toList), ("concerns".toList)]
  let key_points := kp
    ++ decs.map (fun i => ("**Decision**: ".toList) ++ stripStr i)
    ++ tech.map (fun i => ("**Technical**: ".toList) ++ stripStr i)
    ++ cost.map (fun i => ("**Cost**: ".toList) ++ stripStr i)
    ++ risk.map (fun i => ("**Risk**: ".toList) ++ stripStr i)
  let action_items ← extractActionItemsE sections [("action items".toList), ("next steps".toList), ("actions".toList), ("tasks".toList)]
  if summary = [] ∧ key_points = [] ∧ action_items = [] then
    let paragraphs := (splitPara text).filter (fun p => decide (stripStr p ≠ []))
    let summary2 ← if paragraphs ≠ [] then pyIndex0 paragraphs else pure []
    let all_bullets := findBullets text
    let split_point := min 10 all_bullets.length
    return (summary2,
      (all_bullets.take split_point).map stripStr,
      (((all_bullets.drop split_point).take 5).map stripStr).map processOwnerItem)
  else
    return (summary, key_points, action_items.map processOwnerItem)

/-- Remainder of the text after the first occurrence of a pattern. -/
def dropAfterFirst : Str → Str → Option Str
  | [], pat => if pat = [] then some [] else none
  | l@(_ :: t), pat =>
    match dropLit pat l with
    | some r => some r
    | none => dropAfterFirst t pat

/-- The text contains the given pieces, in order and without overlap. -/
def containsInOrder (l : Str) : List Str → Bool
  | [] => true
  | p :: ps =>
    match dropAfterFirst l p with
    | some r => containsInOrder r ps
    | none => false

/-- An independent simple heading scan, written from the specification's
words: the lower-cased names of the lines that begin with one or more
hash characters followed by whitespace. -/
def headingScan (text : Str) : List Str :=
  ((splitNl text).filter isHeadingLine).map (fun l => lowerStr (headingName l))

/-- The end-to-end document of the claimed example completion: the parse
of the completion rendered with an empty participant list, no speaker
segments, and fixed date and timestamp strings. -/
def c1Completion : Str :=
  ("## Summary\nHello.\n\n## Key Takeaways\n- **Technical**: uses v2 API\n\n## Action Items\n1. Ship it (Owner: Bob)".toList)

def c1Doc : Str :=
  format_enhanced_meeting_notes [] (parse_bedrock_response c1Completion).1
    (parse_bedrock_response c1Completion).2.1 (parse_bedrock_response c1Completion).2.2
    [] false ("May 09, 2024".toList) ("2024-05-09 at 12:00:00".toList)

set_option maxRecDepth 8192 in
/-- C1: the claim expects the rendered document to show the Technical
point as a subsection bullet of Key Takeaways; the rendered document
contains no `### Technical` subsection and no `- uses v2 API` bullet at
all — the point is rendered as the numbered line `1. uses v2 API` of a
dedicated Technical Details section instead. -/
theorem C1_counterexample :
    containsSub c1Doc ("### Technical".toList) = false ∧
    containsSub c1Doc ("- uses v2 API".toList) = false ∧
    containsSub c1Doc ("1. uses v2 API".toList) = true := by
  decide

set_option maxRecDepth 8192 in
/-- C1 (amended): parsing the example completion yields summary "Hello.",
the key point `**Technical**: uses v2 API`, and the action item
`Ship it (Owner: Bob)`; rendering produces, in order, a Summary section
whose body is "Hello.", an empty Key Takeaways section, a Technical
Details section with the numbered line `1. uses v2 API` (the bold
Technical point is routed to this dedicated section, not to a subsection
of Key Takeaways), and an Action Items section with the numbered line
`1. Ship it **[Owner: Bob]**`. -/
theorem C1_amended :
    parse_bedrock_response c1Completion =
      (("Hello.".toList), [("**Technical**: uses v2 API".toList)], [("Ship it (Owner: Bob)".toList)]) ∧
    containsInOrder c1Doc
      [("## Summary\n\nHello.\n\n".toList), ("## Key Takeaways\n\n".toList),
       ("## Technical Details\n\n1. uses v2 API\n".toList),
       ("## Action Items\n\n1. Ship it **[Owner: Bob]**\n".toList)] = true := by
  decide

/-- C8: on a pronunciation token followed by a punctuation token the code
appends the punctuation twice — once through the lookahead after the word
and once when the loop reaches the punctuation token itself — so the turn
reads "Hello.." where the claim requires the punctuation to appear
exactly once. -/
theorem C8_failing :
    process_speaker_segments
      [⟨("pronunciation".toList), some ("0.0".toList), [("Hello".toList)]⟩,
       ⟨("punctuation".toList), none, [(".".toList)]⟩]
      [(("spk_0".toList), [("0.0".toList)])] =
      [(some ("spk_0".toList), ("Hello..".toList))] := by
  decide

theorem takeWhile_app_all (p : Char → Bool) (a b : Str) (h : ∀ c ∈ a, p c = true) :
    (a ++ b).takeWhile p = a ++ b.takeWhile p := by
  induction a with
  | nil => simp
  | cons c t ih =>
    have hc := h c (by simp)
    simp only [List.cons_append, List.takeWhile_cons, hc, if_true]
    rw [ih (fun x hx => h x (by simp [hx]))]

theorem dropWhile_app_all (p : Char → Bool) (a b : Str) (h : ∀ c ∈ a, p c = true) :
    (a ++ b).dropWhile p = b.dropWhile p := by
  induction a with
  | nil => simp
  | cons c t ih =>
    have hc := h c (by simp)
    simp only [List.cons_append, List.dropWhile_cons, hc, if_true]
    exact ih (fun x hx => h x (by simp [hx]))

theorem takeWhile_all (p : Char → Bool) (l : Str) (h : ∀ c ∈ l, p c = true) :
    l.takeWhile p = l := by
  have := takeWhile_app_all p l [] h
  simpa using this

theorem dropWhile_all (p : Char → Bool) (l : Str) (h : ∀ c ∈ l, p c = true) :
    l.dropWhile p = [] := by
  have := dropWhile_app_all p l [] h
  simpa using this

theorem takeWhile_cons_neg (p : Char → Bool) (c : Char) (t : Str) (h : p c = false) :
    (c :: t).takeWhile p = [] := by
  simp [List.takeWhile_cons, h]

theorem dropWhile_cons_neg (p : Char → Bool) (c : Char) (t : Str) (h : p c = false) :
    (c :: t).dropWhile p = c :: t := by
  simp [List.dropWhile_cons, h]

theorem dropWhile_app_ne (p : Char → Bool) (a b : Str) (h : a.dropWhile p ≠ []) :
    (a ++ b).dropWhile p = a.dropWhile p ++ b := by
  induction a with
  | nil => simp at h
  | cons c t ih =>
    by_cases hc : p c = true
    · simp only [List.cons_append, List.dropWhile_cons, hc, if_true]
      simp only [List.dropWhile_cons, hc, if_true] at h
      exact ih h
    · simp only [List.cons_append, List.dropWhile_cons, Bool.not_eq_true] at *
      simp [hc]

theorem dropWhile_len_eq (p : Char → Bool) (l : Str)
    (h : (l.dropWhile p).length = l.length) : l.dropWhile p = l := by
  induction l with
  | nil => simp
  | cons c t _ =>
    by_cases hc : p c = true
    · exfalso
      rw [List.dropWhile_cons, if_pos hc] at h
      have := length_dropWhile_le_my p t
      simp only [List.length_cons] at h
      omega
    · simp [List.dropWhile_cons, hc]

theorem dropWhile_ws_idem (l : Str) :
    (l.dropWhile isWsChar).dropWhile isWsChar = l.dropWhile isWsChar := by
  induction l with
  | nil => simp
  | cons c t ih =>
    by_cases hc : isWsChar c = true
    · simp only [List.dropWhile_cons, hc, if_true]; exact ih
    · simp [List.dropWhile_cons, hc]

/-- Any list splits as its trailing-whitespace-free prefix plus a
whitespace run. -/
theorem dropTrail_decomp (l : Str) :
    l = dropTrailWs l ++ (l.reverse.takeWhile isWsChar).reverse ∧
      (∀ c ∈ (l.reverse.takeWhile isWsChar).reverse, isWsChar c = true) := by
  constructor
  · have h := List.takeWhile_append_dropWhile (p := isWsChar) (l := l.reverse)
    unfold dropTrailWs
    calc l = l.reverse.reverse := by simp
    _ = ((l.reverse.takeWhile isWsChar) ++ (l.reverse.dropWhile isWsChar)).reverse := by rw [h]
    _ = (l.reverse.dropWhile isWsChar).reverse ++ (l.reverse.takeWhile isWsChar).reverse := by
        rw [List.reverse_append]
  · intro c hc
    rw [List.mem_reverse] at hc
    exact List.mem_takeWhile_imp hc

theorem dropTrail_app_ws (m w : Str) (hw : ∀ c ∈ w, isWsChar c = true) :
    dropTrailWs (m ++ w) = dropTrailWs m := by
  unfold dropTrailWs
  rw [List.reverse_append, dropWhile_app_all isWsChar w.reverse m.reverse
    (fun c hc => hw c (by rwa [List.mem_reverse] at hc))]

theorem strip_app_ws (m w : Str) (hw : ∀ c ∈ w, isWsChar c = true) :
    stripStr (m ++ w) = stripStr m := by
  unfold stripStr
  by_cases hm : m.dropWhile isWsChar = []
  · rw [dropWhile_app_all isWsChar m w (by
      intro c hc
      by_contra hcc
      have : c ∈ m.dropWhile isWsChar := by
        have := List.takeWhile_append_dropWhile (p := isWsChar) (l := m)
        by_contra hmem
        have htw : c ∈ m.takeWhile isWsChar ∨ c ∈ m.dropWhile isWsChar := by
          rw [← List.mem_append, this]; exact hc
        rcases htw with h1 | h1
        · exact hcc (List.mem_takeWhile_imp h1)
        · exact hmem h1
      rw [hm] at this
      simp at this), hm]
    rw [dropWhile_all isWsChar w hw]
  · rw [dropWhile_app_ne isWsChar m w hm]
    exact dropTrail_app_ws _ w hw

theorem dropWhile_ws_of_strip_eq (l : Str) (h : stripStr l = l) :
    l.dropWhile isWsChar = l := by
  apply dropWhile_len_eq
  have h1 := length_dropWhile_le_my isWsChar l
  have h2 : (stripStr l).length ≤ (l.dropWhile isWsChar).length := by
    unfold stripStr dropTrailWs
    have := length_dropWhile_le_my isWsChar (l.dropWhile isWsChar).reverse
    simp only [List.length_reverse] at *
    omega
  rw [h] at h2
  omega

theorem strip_dropWhile_ws (l : Str) :
    stripStr (l.dropWhile isWsChar) = stripStr l := by
  unfold stripStr
  rw [dropWhile_ws_idem]

theorem strip_of_no_ws (l : Str) (h : ∀ c ∈ l, isWsChar c = false) : stripStr l = l := by
  unfold stripStr dropTrailWs
  have h1 : l.dropWhile isWsChar = l := by
    cases l with
    | nil => simp
    | cons c t => exact dropWhile_cons_neg _ _ _ (h c (by simp))
  rw [h1]
  have h2 : l.reverse.dropWhile isWsChar = l.reverse := by
    cases hr : l.reverse with
    | nil => simp
    | cons c t =>
      refine dropWhile_cons_neg _ _ _ (h c ?_)
      rw [← List.mem_reverse, hr]
      simp
  rw [h2, List.reverse_reverse]

theorem dropWhile_eq_self_cons (p : Char → Bool) (c : Char) (t : Str)
    (h : (c :: t).dropWhile p = c :: t) : p c = false := by
  by_contra hc
  rw [Bool.not_eq_false] at hc
  rw [List.dropWhile_cons, if_pos hc] at h
  have h1 := length_dropWhile_le_my p t
  have h2 : (t.dropWhile p).length = t.length + 1 := by rw [h]; simp
  omega

theorem dropTrail_idem (l : Str) : dropTrailWs (dropTrailWs l) = dropTrailWs l := by
  unfold dropTrailWs
  rw [List.reverse_reverse, dropWhile_ws_idem]

theorem strip_idem (l : Str) : stripStr (stripStr l) = stripStr l := by
  unfold stripStr
  have hy : (l.dropWhile isWsChar).dropWhile isWsChar = l.dropWhile isWsChar :=
    dropWhile_ws_idem l
  have h1 : (dropTrailWs (l.dropWhile isWsChar)).dropWhile isWsChar =
      dropTrailWs (l.dropWhile isWsChar) := by
    cases hs : dropTrailWs (l.dropWhile isWsChar) with
    | nil => simp
    | cons c t =>
      apply dropWhile_cons_neg
      obtain ⟨hdec, _⟩ := dropTrail_decomp (l.dropWhile isWsChar)
      rw [hs] at hdec
      have := dropWhile_eq_self_cons isWsChar c
        (t ++ ((l.dropWhile isWsChar).reverse.takeWhile isWsChar).reverse)
      apply this
      simp only [List.cons_append] at hdec
      rw [← hdec]
      exact hy
  rw [h1, dropTrail_idem]

theorem dropLit_self_app (p r : Str) : dropLit p (p ++ r) = some r := by
  induction p with
  | nil => simp [dropLit]
  | cons c t ih => simp [dropLit, ih]

theorem dropLit_cons_ne (pc : Char) (ps : Str) (c : Char) (cs : Str) (h : c ≠ pc) :
    dropLit (pc :: ps) (c :: cs) = none := by
  simp [dropLit, h]

/-- C6: whenever structured extraction yields no summary, no key points,
and no action items, `parse_bedrock_response` returns the first non-empty
paragraph as summary and splits the document-wide bullets at
min(10, total), with the following at most 5 bullets becoming the action
items (normalized by the owner pass); the spec-modelled simpler formatter
variant splits at min(7, total) with an overflow of at most 5. -/
theorem C6_fallback (text : Str)
    (h : extractSummary (splitSections text) = [] ∧
      structuredKeyPoints (splitSections text) = [] ∧
      extractActionItems (splitSections text) = []) :
    parse_bedrock_response text =
      (fallbackSummary text,
        ((findBullets text).take (min 10 (findBullets text).length)).map stripStr,
        ((((findBullets text).drop (min 10 (findBullets text).length)).take 5).map
          stripStr).map processOwnerItem) ∧
    (simpleVariantSplit (findBullets text)).1 =
      (findBullets text).take (min 7 (findBullets text).length) ∧
    (simpleVariantSplit (findBullets text)).2.length ≤ 5 := by
  refine ⟨?_, rfl, ?_⟩
  · unfold parse_bedrock_response
    rw [if_pos h]
  · unfold simpleVariantSplit
    simp only [List.length_take]
    omega

/-- Witness for C6 at a concrete no-structure completion. -/
theorem C6_fallback_witness :
    parse_bedrock_response ("Intro paragraph.\n\n- one\n- two".toList) =
      (("Intro paragraph.".toList), [("one".toList), ("two".toList)], []) := by
  have h := C6_fallback ("Intro paragraph.\n\n- one\n- two".toList) (by decide)
  exact h.1.trans (by decide)

theorem matchBold_pos (label content : Str) (hl : label ≠ [])
    (hstar : ∀ c ∈ label, c ≠ '*') (hcs : stripStr content = content)
    (hnl : ∀ c ∈ content, c ≠ '\n') :
    matchBold (("**".toList) ++ label ++ ("**: ".toList) ++ content) = some (label, content) := by
  have estar : ("**".toList : Str) = ['*', '*'] := rfl
  have emid : ("**: ".toList : Str) = ['*', '*', ':', ' '] := rfl
  obtain ⟨c0, lt, rfl⟩ : ∃ c0 lt, label = c0 :: lt := by
    cases label with
    | nil => exact absurd rfl hl
    | cons a b => exact ⟨a, b, rfl⟩
  have harr : (("**".toList) ++ (c0 :: lt) ++ ("**: ".toList) ++ content : Str) =
      '*' :: '*' :: (c0 :: lt ++ (['*', '*', ':', ' '] ++ content)) := by
    rw [estar, emid]
    simp [List.append_assoc]
  rw [harr]
  have hpred : ∀ c ∈ (c0 :: lt : Str), (fun c => decide (c ≠ '*')) c = true := by
    intro c hc
    simp [hstar c hc]
  have h1 : ((c0 :: lt : Str) ++ (['*', '*', ':', ' '] ++ content)).takeWhile
      (fun c => decide (c ≠ '*')) = c0 :: lt := by
    rw [takeWhile_app_all _ _ _ hpred]
    simp only [List.cons_append, List.nil_append]
    rw [takeWhile_cons_neg _ _ _ (by simp)]
    simp
  have h2 : ((c0 :: lt : Str) ++ (['*', '*', ':', ' '] ++ content)).dropWhile
      (fun c => decide (c ≠ '*')) = '*' :: '*' :: ':' :: ' ' :: content := by
    rw [dropWhile_app_all _ _ _ hpred]
    simp only [List.cons_append, List.nil_append]
    rw [dropWhile_cons_neg _ _ _ (by simp)]
  have h3 : (' ' :: content : Str).dropWhile isWsChar = content := by
    show (([' '] : Str) ++ content).dropWhile isWsChar = content
    rw [dropWhile_app_all _ _ _ (by intro c hc; simp at hc; simp [hc, isWsChar])]
    exact dropWhile_ws_of_strip_eq content hcs
  have h4 : content.takeWhile (fun c => decide (c ≠ '\n')) = content :=
    takeWhile_all _ _ (by intro c hc; simp [hnl c hc])
  unfold matchBold
  simp only [h1, h2, h3, h4]
  simp

theorem matchBold_none_head (p : Str) (h : ∀ c t, p = c :: t → c ≠ '*') :
    matchBold p = none := by
  match p with
  | [] => rfl
  | [c] => rfl
  | c1 :: c2 :: r =>
    exact if_neg (fun hc => h c1 (c2 :: r) rfl hc.1)

theorem matchPlain_pos (label content : Str) (hl : label ≠ [])
    (halpha : ∀ c ∈ label, c.isAlpha = true) (hcs : stripStr content = content)
    (hnl : ∀ c ∈ content, c ≠ '\n') :
    matchPlain (label ++ (": ".toList) ++ content) = some (label, content) := by
  have emid : (": ".toList : Str) = [':', ' '] := rfl
  have harr : ((label ++ (": ".toList) ++ content : Str)) =
      label ++ ([':', ' '] ++ content) := by
    rw [emid, List.append_assoc]
  rw [harr]
  have h1 : (label ++ ([':', ' '] ++ content)).takeWhile Char.isAlpha = label := by
    rw [takeWhile_app_all _ _ _ halpha]
    simp only [List.cons_append, List.nil_append]
    rw [takeWhile_cons_neg _ _ _ (by decide)]
    simp
  have h2 : (label ++ ([':', ' '] ++ content)).dropWhile Char.isAlpha =
      ':' :: ' ' :: content := by
    rw [dropWhile_app_all _ _ _ halpha]
    simp only [List.cons_append, List.nil_append]
    rw [dropWhile_cons_neg _ _ _ (by decide)]
  have h3 : (' ' :: content : Str).dropWhile isWsChar = content := by
    show (([' '] : Str) ++ content).dropWhile isWsChar = content
    rw [dropWhile_app_all _ _ _ (by intro c hc; simp at hc; simp [hc, isWsChar])]
    exact dropWhile_ws_of_strip_eq content hcs
  have h4 : content.takeWhile (fun c2 => decide (c2 ≠ '\n')) = content :=
    takeWhile_all _ _ (by intro c hc; simp [hnl c hc])
  obtain ⟨c0, lt, rfl⟩ : ∃ c0 lt, label = c0 :: lt := by
    cases label with
    | nil => exact absurd rfl hl
    | cons a b => exact ⟨a, b, rfl⟩
  unfold matchPlain
  simp only [h1, h2, h3, h4]
  simp

theorem matchPlain_none_no_colon (p : Str) (h : ∀ c ∈ p, c ≠ ':') :
    matchPlain p = none := by
  unfold matchPlain
  cases ht : p.takeWhile Char.isAlpha with
  | nil => rfl
  | cons g gt =>
    cases hd : p.dropWhile Char.isAlpha with
    | nil => rfl
    | cons c r2 =>
      have hcp : c ∈ p := by
        have hmem : c ∈ p.dropWhile Char.isAlpha := by rw [hd]; simp
        exact List.Sublist.mem hmem (List.dropWhile_sublist _)
      exact if_neg (fun hc => h c hcp hc)

theorem isAlpha_not_ws (c : Char) (h : c.isAlpha = true) : isWsChar c = false := by
  by_contra hw
  rw [Bool.not_eq_false] at hw
  unfold isWsChar at hw
  simp only [Bool.or_eq_true, decide_eq_true_eq] at hw
  rcases hw with ((((h1 | h1) | h1) | h1) | h1) | h1 <;>
    (subst h1; exact absurd h (by decide))

/-- C4: the claim expects the plain label form to admit letters and
spaces and to route the reserved categories case-insensitively for both
forms; in the code a plain label with a space is not recognized at all,
and a plain reserved label is filed as an ordinary free-form category
rather than into the decisions list. -/
theorem C4_counterexample :
    categorize_point ("Cost Analysis: budget is tight".toList) = .uncat ∧
    categorize_point ("Decision: adopt option A".toList) =
      KeyPointClass.freeform ("Decision".toList) ("adopt option A".toList) ∧
    (partitionKeyPoints [("Decision: adopt option A".toList)]).decisions = [] := by
  decide

/-- C4 (amended): a bold `**Label**: content` point is routed
case-insensitively to the four reserved buckets, any other bold label to a
free-form bucket; a plain `Label: content` point is recognized only when
the label is a nonempty run of letters (no spaces) and always becomes a
free-form bucket, reserved word or not; a point containing neither a
colon nor an asterisk stays uncategorized. -/
theorem C4_amended :
    (∀ label content : Str, label ≠ [] → (∀ c ∈ label, c ≠ '*') →
      stripStr label = label → stripStr content = content → (∀ c ∈ content, c ≠ '\n') →
      categorize_point (("**".toList) ++ label ++ ("**: ".toList) ++ content) =
        (if lowerStr label = ("decision".toList) then .decision content
         else if lowerStr label = ("technical".toList) then .technical content
         else if lowerStr label = ("cost".toList) then .cost content
         else if lowerStr label = ("risk".toList) then .risk content
         else .freeform label content)) ∧
    (∀ label content : Str, label ≠ [] → (∀ c ∈ label, c.isAlpha = true) →
      stripStr content = content → (∀ c ∈ content, c ≠ '\n') →
      categorize_point (label ++ (": ".toList) ++ content) =
        KeyPointClass.freeform label content) ∧
    (∀ p : Str, (∀ c ∈ p, c ≠ ':' ∧ c ≠ '*') → categorize_point p = .uncat) := by
  refine ⟨?_, ?_, ?_⟩
  · intro label content hl hstar hsl hsc hnl
    unfold categorize_point
    rw [matchBold_pos label content hl hstar hsc hnl]
    dsimp only
    rw [hsl, hsc]
  · intro label content hl halpha hsc hnl
    unfold categorize_point
    have hb : matchBold (label ++ (": ".toList) ++ content) = none := by
      apply matchBold_none_head
      intro c t hct
      cases label with
      | nil => exact absurd rfl hl
      | cons a b =>
        simp only [List.cons_append] at hct
        have ha := halpha a (by simp)
        injection hct with h1 _
        subst h1
        intro hcc
        subst hcc
        exact absurd ha (by decide)
    rw [hb, matchPlain_pos label content hl halpha hsc hnl]
    dsimp only
    rw [strip_of_no_ws label (fun c hc => isAlpha_not_ws c (halpha c hc)), hsc]
  · intro p hp
    unfold categorize_point
    rw [matchBold_none_head p (fun c t hct => by subst hct; exact (hp c (by simp)).2),
      matchPlain_none_no_colon p (fun c hc => (hp c hc).1)]

/-- Witness for C4 (amended) at concrete points. -/
theorem C4_amended_witness :
    categorize_point ("**Risk**: Server may fail".toList) =
      KeyPointClass.risk ("Server may fail".toList) ∧
    categorize_point ("Timeline: slipping".toList) =
      KeyPointClass.freeform ("Timeline".toList) ("slipping".toList) ∧
    categorize_point ("Plain point".toList) = .uncat := by
  refine ⟨?_, ?_, ?_⟩
  · have h := C4_amended.1 ("Risk".toList) ("Server may fail".toList)
      (by decide) (by decide) (by decide) (by decide) (by decide)
    exact h.trans (by decide)
  · exact C4_amended.2.1 ("Timeline".toList) ("slipping".toList)
      (by decide) (by decide) (by decide) (by decide)
  · exact C4_amended.2.2 ("Plain point".toList) (by decide)

theorem dropWhile_eq_self_of_head (p : Char → Bool) (l : Str)
    (h : ∀ c t, l = c :: t → p c = false) : l.dropWhile p = l := by
  cases l with
  | nil => simp
  | cons c t => exact dropWhile_cons_neg p c t (h c t rfl)

theorem dropTrail_eq_self_last (l : Str) :
    dropTrailWs l = l ↔ (∀ c, l.getLast? = some c → isWsChar c = false) := by
  unfold dropTrailWs
  constructor
  · intro h c hc
    have hrev : l.reverse.dropWhile isWsChar = l.reverse := by
      have := congrArg List.reverse h
      rwa [List.reverse_reverse] at this
    cases hr : l.reverse with
    | nil =>
      exfalso
      have : l = [] := by simpa using congrArg List.reverse hr
      subst this
      simp at hc
    | cons a t =>
      rw [hr] at hrev
      have ha := dropWhile_eq_self_cons isWsChar a t hrev
      have : l.getLast? = some a := by
        rw [← List.head?_reverse, hr]
        rfl
      rw [this] at hc
      cases hc
      exact ha
  · intro h
    have : l.reverse.dropWhile isWsChar = l.reverse := by
      apply dropWhile_eq_self_of_head
      intro c t hct
      apply h
      rw [← List.head?_reverse, hct]
      rfl
    rw [this, List.reverse_reverse]

theorem dropTrail_cons (c : Char) (t : Str) (h : dropTrailWs (c :: t) = c :: t) :
    dropTrailWs t = t := by
  rw [dropTrail_eq_self_last] at h ⊢
  intro d hd
  apply h
  cases t with
  | nil => simp at hd
  | cons a b => rw [List.getLast?_cons_cons]; exact hd

theorem dropTrail_all_ws_last (l : Str) (hne : l ≠ []) (hw : ∀ c ∈ l, isWsChar c = true) :
    dropTrailWs l ≠ l := by
  intro h
  rw [dropTrail_eq_self_last] at h
  cases hr : l.getLast? with
  | none =>
    rw [List.getLast?_eq_none_iff] at hr
    exact hne hr
  | some c =>
    have hc : c ∈ l := List.mem_of_mem_getLast? hr
    have := h c hr
    rw [hw c hc] at this
    cases this

theorem strip_ne_nil_dropWhile (l : Str) (h : stripStr l ≠ []) :
    l.dropWhile isWsChar ≠ [] := by
  intro hd
  apply h
  unfold stripStr
  rw [hd]
  rfl

theorem matchOwnerAt_cons_ne (c : Char) (t : Str) (h : c ≠ '(') :
    matchOwnerAt (c :: t) = none := by
  unfold matchOwnerAt
  have hd : dropLit ("(Owner:".toList) (c :: t) = none :=
    dropLit_cons_ne '(' ("Owner:".toList) c t h
  rw [hd]

theorem searchOwnerDeadline_app (a b : Str) (ha : ∀ c ∈ a, c ≠ '(') :
    searchOwnerDeadline (a ++ b) = searchOwnerDeadline b := by
  induction a with
  | nil => simp
  | cons c t ih =>
    rw [List.cons_append]
    show (match matchOwnerAt (c :: (t ++ b)) with
      | some (g1, g2, _) => some (g1, g2)
      | none => searchOwnerDeadline (t ++ b)) = searchOwnerDeadline b
    rw [matchOwnerAt_cons_ne c (t ++ b) (ha c (by simp))]
    exact ih (fun x hx => ha x (by simp [hx]))

theorem searchOwnerDeadline_of_match (c : Char) (t g1 : Str) (g2 : Option Str) (rest : Str)
    (h : matchOwnerAt (c :: t) = some (g1, g2, rest)) :
    searchOwnerDeadline (c :: t) = some (g1, g2) := by
  show (match matchOwnerAt (c :: t) with
    | some (g1, g2, _) => some (g1, g2)
    | none => searchOwnerDeadline t) = some (g1, g2)
  rw [h]

theorem dropWhile_ws_head_ne (l : Str) :
    ∀ c t, l.dropWhile isWsChar = c :: t → isWsChar c = false := by
  intro c t h
  have := dropWhile_ws_idem l
  rw [h] at this
  exact dropWhile_eq_self_cons isWsChar c t this

theorem tryDeadline_pos (d rest : Str) (h3 : d.dropWhile isWsChar ≠ [])
    (h4 : ∀ c ∈ d, c ≠ ')') :
    tryDeadline ((" Deadline: ".toList) ++ d ++ (')' :: rest)) =
      some (d.dropWhile isWsChar, rest) := by
  have harr : ((" Deadline: ".toList) ++ d ++ (')' :: rest) : Str) =
      ' ' :: (("Deadline:".toList) ++ (' ' :: (d ++ (')' :: rest)))) := by
    show ((' ' :: ("Deadline:".toList) ++ [' '] : Str) ++ d ++ (')' :: rest)) = _
    simp [List.append_assoc]
  rw [harr]
  have h1 : (' ' :: (("Deadline:".toList) ++ (' ' :: (d ++ (')' :: rest)))) : Str).dropWhile
      isWsChar = ("Deadline:".toList) ++ (' ' :: (d ++ (')' :: rest))) := by
    rw [List.dropWhile_cons, if_pos (by decide)]
    exact dropWhile_cons_neg _ _ _ (by decide)
  unfold tryDeadline
  rw [h1, dropLit_self_app]
  have h2 : ((' ' :: (d ++ (')' :: rest))) : Str).dropWhile isWsChar =
      d.dropWhile isWsChar ++ (')' :: rest) := by
    rw [List.dropWhile_cons, if_pos (by decide)]
    exact dropWhile_app_ne isWsChar d (')' :: rest) h3
  obtain ⟨e0, dt, hd'⟩ : ∃ e0 dt, d.dropWhile isWsChar = e0 :: dt := by
    cases hdj : d.dropWhile isWsChar with
    | nil => exact absurd hdj h3
    | cons a b => exact ⟨a, b, rfl⟩
  have hmem : ∀ c ∈ d.dropWhile isWsChar, (fun c => decide (c ≠ ')')) c = true := by
    intro c hc
    have : c ∈ d := List.Sublist.mem hc (List.dropWhile_sublist _)
    simp [h4 c this]
  have h5 : (d.dropWhile isWsChar ++ (')' :: rest)).takeWhile (fun c => decide (c ≠ ')')) =
      d.dropWhile isWsChar := by
    rw [takeWhile_app_all _ _ _ hmem, takeWhile_cons_neg _ _ _ (by simp)]
    simp
  have h6 : (d.dropWhile isWsChar ++ (')' :: rest)).dropWhile (fun c => decide (c ≠ ')')) =
      ')' :: rest := by
    rw [dropWhile_app_all _ _ _ hmem, dropWhile_cons_neg _ _ _ (by simp)]
  dsimp only
  rw [h2, h5, h6, hd']
  rfl

theorem matchOwnerAt_pos_noDl (name rest : Str)
    (h1 : name.dropWhile isWsChar ≠ []) (h2 : ∀ c ∈ name, c ≠ ',' ∧ c ≠ ')') :
    matchOwnerAt (("(Owner: ".toList) ++ name ++ (')' :: rest)) =
      some (name.dropWhile isWsChar, none, rest) := by
  have harr : ((("(Owner: ".toList) ++ name ++ (')' :: rest)) : Str) =
      ("(Owner:".toList) ++ (' ' :: (name ++ (')' :: rest))) := by
    show (((("(Owner:".toList) ++ [' '] : Str) ++ name ++ (')' :: rest)) : Str) = _
    simp [List.append_assoc]
  rw [harr]
  unfold matchOwnerAt
  rw [dropLit_self_app]
  have hmid : ((' ' :: (name ++ (')' :: rest))) : Str).dropWhile isWsChar =
      name.dropWhile isWsChar ++ (')' :: rest) := by
    rw [List.dropWhile_cons, if_pos (by decide)]
    exact dropWhile_app_ne isWsChar name _ h1
  obtain ⟨c0, nt, hn'⟩ : ∃ c0 nt, name.dropWhile isWsChar = c0 :: nt := by
    cases hdj : name.dropWhile isWsChar with
    | nil => exact absurd hdj h1
    | cons a b => exact ⟨a, b, rfl⟩
  have hmem : ∀ c ∈ name.dropWhile isWsChar, notCommaParen c = true := by
    intro c hc
    have hcn : c ∈ name := List.Sublist.mem hc (List.dropWhile_sublist _)
    unfold notCommaParen
    simp [(h2 c hcn).1, (h2 c hcn).2]
  have h5 : (name.dropWhile isWsChar ++ (')' :: rest)).takeWhile notCommaParen =
      name.dropWhile isWsChar := by
    rw [takeWhile_app_all _ _ _ hmem, takeWhile_cons_neg _ _ _ (by decide)]
    simp
  have h6 : (name.dropWhile isWsChar ++ (')' :: rest)).dropWhile notCommaParen =
      ')' :: rest := by
    rw [dropWhile_app_all _ _ _ hmem, dropWhile_cons_neg _ _ _ (by decide)]
  dsimp only
  rw [hmid, h5, h6, hn']
  rfl

theorem matchOwnerAt_pos_dl (name d rest : Str)
    (h1 : name.dropWhile isWsChar ≠ []) (h2 : ∀ c ∈ name, c ≠ ',' ∧ c ≠ ')')
    (h3 : d.dropWhile isWsChar ≠ []) (h4 : ∀ c ∈ d, c ≠ ')') :
    matchOwnerAt (("(Owner: ".toList) ++ name ++ (", Deadline: ".toList) ++ d ++ (')' :: rest)) =
      some (name.dropWhile isWsChar, some (d.dropWhile isWsChar), rest) := by
  have harr : ((("(Owner: ".toList) ++ name ++ (", Deadline: ".toList) ++ d ++ (')' :: rest)) : Str) =
      ("(Owner:".toList) ++
        (' ' :: (name ++ (',' :: ((" Deadline: ".toList) ++ d ++ (')' :: rest))))) := by
    show (((("(Owner:".toList) ++ [' '] : Str) ++ name ++
      ((',' :: (" Deadline: ".toList) : Str)) ++ d ++ (')' :: rest)) : Str) = _
    simp [List.append_assoc]
  rw [harr]
  unfold matchOwnerAt
  rw [dropLit_self_app]
  have hmid : ((' ' :: (name ++ (',' :: ((" Deadline: ".toList) ++ d ++ (')' :: rest))))) :
      Str).dropWhile isWsChar =
      name.dropWhile isWsChar ++ (',' :: ((" Deadline: ".toList) ++ d ++ (')' :: rest))) := by
    rw [List.dropWhile_cons, if_pos (by decide)]
    exact dropWhile_app_ne isWsChar name _ h1
  obtain ⟨c0, nt, hn'⟩ : ∃ c0 nt, name.dropWhile isWsChar = c0 :: nt := by
    cases hdj : name.dropWhile isWsChar with
    | nil => exact absurd hdj h1
    | cons a b => exact ⟨a, b, rfl⟩
  have hmem : ∀ c ∈ name.dropWhile isWsChar, notCommaParen c = true := by
    intro c hc
    have hcn : c ∈ name := List.Sublist.mem hc (List.dropWhile_sublist _)
    unfold notCommaParen
    simp [(h2 c hcn).1, (h2 c hcn).2]
  have h5 : (name.dropWhile isWsChar ++
      (',' :: ((" Deadline: ".toList) ++ d ++ (')' :: rest)))).takeWhile notCommaParen =
      name.dropWhile isWsChar := by
    rw [takeWhile_app_all _ _ _ hmem, takeWhile_cons_neg _ _ _ (by decide)]
    simp
  have h6 : (name.dropWhile isWsChar ++
      (',' :: ((" Deadline: ".toList) ++ d ++ (')' :: rest)))).dropWhile notCommaParen =
      ',' :: ((" Deadline: ".toList) ++ d ++ (')' :: rest)) := by
    rw [dropWhile_app_all _ _ _ hmem, dropWhile_cons_neg _ _ _ (by decide)]
  dsimp only
  rw [hmid, h5, h6, hn']
  show (match tryDeadline ((" Deadline: ".toList) ++ d ++ (')' :: rest)) with
    | some (d2, post) => some ((c0 :: nt : Str), some d2, post)
    | none => none) = some ((c0 :: nt : Str), some (d.dropWhile isWsChar), rest)
  rw [tryDeadline_pos d rest h3 h4]

theorem subOwner_of_match (l rest : Str) (hne : l ≠ []) (h : subMatchAt l = some rest) :
    subOwner l = subOwner rest := by
  cases l with
  | nil => exact absurd rfl hne
  | cons c t => exact subOwner_step_some c t rest h

theorem subOwner_ws_annot (w region : Str) (hw : ∀ c ∈ w, isWsChar c = true)
    (hr : ∀ c ∈ region, c ≠ ')' ∧ c ≠ '\n') :
    subOwner (w ++ ("(Owner:".toList) ++ region ++ (')' :: [])) = [] := by
  have harr : ((w ++ ("(Owner:".toList) ++ region ++ (')' :: [])) : Str) =
      w ++ (("(Owner:".toList) ++ (region ++ [')'])) := by
    simp [List.append_assoc]
  rw [harr]
  have hmatch : subMatchAt (w ++ (("(Owner:".toList) ++ (region ++ [')']))) = some [] := by
    unfold subMatchAt
    have hdw : (w ++ (("(Owner:".toList) ++ (region ++ [')']))).dropWhile isWsChar =
        ("(Owner:".toList) ++ (region ++ [')']) := by
      rw [dropWhile_app_all _ _ _ hw]
      exact dropWhile_cons_neg _ _ _ (by decide)
    rw [hdw, dropLit_self_app]
    have hrw : (region ++ ([')'] : Str)).dropWhile
        (fun c => decide (c ≠ ')' ∧ c ≠ '\n')) = [')'] := by
      rw [dropWhile_app_all _ _ _ (by
        intro c hc
        simp [(hr c hc).1, (hr c hc).2])]
      exact dropWhile_cons_neg _ _ _ (by simp)
    dsimp only
    unfold lazyClose
    rw [hrw]
    rfl
  have hne : (w ++ (("(Owner:".toList) ++ (region ++ [')'])) : Str) ≠ [] := by
    simp
  rw [subOwner_of_match _ _ hne hmatch]
  rfl

theorem subOwner_app_clean (m rest : Str) (h1 : ∀ c ∈ m, c ≠ '(')
    (h2 : dropTrailWs m = m) : subOwner (m ++ rest) = m ++ subOwner rest := by
  induction m with
  | nil => simp
  | cons c t ih =>
    have hmatch : subMatchAt (c :: (t ++ rest)) = none := by
      unfold subMatchAt
      by_cases hc : isWsChar c = true
      · have htne : t.dropWhile isWsChar ≠ [] := by
          intro hnil
          rw [List.dropWhile_eq_nil_iff] at hnil
          have : ∀ x ∈ (c :: t : Str), isWsChar x = true := by
            intro x hx
            rcases List.mem_cons.mp hx with rfl | hx2
            · exact hc
            · exact hnil x hx2
          exact dropTrail_all_ws_last (c :: t) (by simp) this h2
        obtain ⟨c1, ts1, ht1⟩ : ∃ c1 ts1, t.dropWhile isWsChar = c1 :: ts1 := by
          cases hdj : t.dropWhile isWsChar with
          | nil => exact absurd hdj htne
          | cons a b => exact ⟨a, b, rfl⟩
        have hdw : ((c :: (t ++ rest)) : Str).dropWhile isWsChar =
            c1 :: (ts1 ++ rest) := by
          rw [List.dropWhile_cons, if_pos hc, dropWhile_app_ne isWsChar t rest htne, ht1]
          simp
        rw [hdw]
        have hc1 : c1 ∈ t := by
          have : c1 ∈ t.dropWhile isWsChar := by rw [ht1]; simp
          exact List.Sublist.mem this (List.dropWhile_sublist _)
        have hdl : dropLit ("(Owner:".toList) (c1 :: (ts1 ++ rest)) = none :=
          dropLit_cons_ne '(' ("Owner:".toList) c1 (ts1 ++ rest) (h1 c1 (by simp [hc1]))
        rw [hdl]
      · have hdw : ((c :: (t ++ rest)) : Str).dropWhile isWsChar = c :: (t ++ rest) :=
          dropWhile_cons_neg _ _ _ (by simpa using hc)
        have hdl : dropLit ("(Owner:".toList) (c :: (t ++ rest)) = none :=
          dropLit_cons_ne '(' ("Owner:".toList) c (t ++ rest) (h1 c (by simp))
        rw [hdw, hdl]
    rw [List.cons_append, subOwner_step_none c (t ++ rest) hmatch,
      ih (fun x hx => h1 x (by simp [hx])) (dropTrail_cons c t h2)]
    rfl

/-- C3: for every item of the form `txt (Owner: name)` or
`txt (Owner: name, Deadline: date)` — with a text free of opening
parentheses, a name containing no comma, closing parenthesis, or newline
and not entirely whitespace, and a date containing no closing parenthesis
or newline and not entirely whitespace — the extractor strips the entire
parenthetical and returns the stripped text together with the captured
owner and, when present, the captured deadline. -/
theorem C3_extract (txt name : Str) (dOpt : Option Str)
    (htxt : ∀ c ∈ txt, c ≠ '(')
    (hname1 : stripStr name ≠ [])
    (hname2 : ∀ c ∈ name, c ≠ ',' ∧ c ≠ ')' ∧ c ≠ '\n')
    (hdl : ∀ d, dOpt = some d → stripStr d ≠ [] ∧ ∀ c ∈ d, c ≠ ')' ∧ c ≠ '\n') :
    extract_owner_deadline (txt ++ (" (Owner: ".toList) ++ name ++
        (match dOpt with
         | some d => (", Deadline: ".toList) ++ d
         | none => ([] : Str)) ++ (")".toList)) =
      (stripStr txt, some (stripStr name), dOpt.map stripStr) := by
  have hnd : name.dropWhile isWsChar ≠ [] := strip_ne_nil_dropWhile name hname1
  have hn2 : ∀ c ∈ name, c ≠ ',' ∧ c ≠ ')' := fun c hc => ⟨(hname2 c hc).1, (hname2 c hc).2.1⟩
  obtain ⟨htd, hwtxt⟩ := dropTrail_decomp txt
  have hm1 : ∀ c ∈ dropTrailWs txt, c ≠ '(' := by
    intro c hc
    apply htxt
    rw [htd]
    exact List.mem_append.mpr (Or.inl hc)
  have hstm : stripStr (dropTrailWs txt) = stripStr txt := by
    conv_rhs => rw [htd]
    rw [strip_app_ws _ _ hwtxt]
  have hsubm : ∀ region : Str, (∀ c ∈ region, c ≠ ')' ∧ c ≠ '\n') →
      subOwner (txt ++ ((' ' :: ("(Owner:".toList)) ++ (region ++ [')']))) = dropTrailWs txt := by
    intro region hregion
    conv_lhs => rw [htd]
    have harr2 : ((dropTrailWs txt ++ (txt.reverse.takeWhile isWsChar).reverse) ++
        ((' ' :: ("(Owner:".toList)) ++ (region ++ [')'])) : Str) =
        dropTrailWs txt ++ ((((txt.reverse.takeWhile isWsChar).reverse ++ [' ']) ++
          ("(Owner:".toList) ++ region ++ (')' :: []))) := by
      simp only [List.append_assoc, List.cons_append, List.nil_append]
    rw [harr2, subOwner_app_clean _ _ hm1 (dropTrail_idem txt),
      subOwner_ws_annot _ _ (by
        intro c hc
        rcases List.mem_append.mp hc with h | h
        · exact hwtxt c h
        · simp at h
          simp [h, isWsChar]) hregion]
    simp
  cases dOpt with
  | none =>
    have harr : (txt ++ (" (Owner: ".toList) ++ name ++
        (match (none : Option Str) with
         | some d => (", Deadline: ".toList) ++ d
         | none => ([] : Str)) ++ (")".toList) : Str) =
        (txt ++ [' ']) ++ (("(Owner: ".toList) ++ name ++ (')' :: [])) := by
      dsimp only
      simp only [List.append_assoc, List.append_nil]
      all_goals rfl
    rw [harr]
    unfold extract_owner_deadline
    have hsearch : searchOwnerDeadline ((txt ++ [' ']) ++
        (("(Owner: ".toList) ++ name ++ (')' :: []))) =
        some (name.dropWhile isWsChar, none) := by
      rw [searchOwnerDeadline_app (txt ++ [' ']) _ (by
        intro c hc
        rcases List.mem_append.mp hc with h | h
        · exact htxt c h
        · simp at h
          simp [h])]
      exact searchOwnerDeadline_of_match '(' (("Owner: ".toList) ++ (name ++ (')' :: [])))
        (name.dropWhile isWsChar) none []
        (matchOwnerAt_pos_noDl name [] hnd hn2)
    rw [hsearch]
    dsimp only
    have hsub : subOwner ((txt ++ [' ']) ++ (("(Owner: ".toList) ++ name ++ (')' :: []))) =
        dropTrailWs txt := by
      have harr3 : (((txt ++ [' ']) ++ (("(Owner: ".toList) ++ name ++ (')' :: []))) : Str) =
          txt ++ ((' ' :: ("(Owner:".toList)) ++ ((([' '] ++ name)) ++ [')'])) := by
        simp only [List.append_assoc, List.cons_append, List.nil_append]
        all_goals rfl
      rw [harr3]
      exact hsubm ([' '] ++ name) (by
        intro c hc
        rcases List.mem_append.mp hc with h | h
        · simp at h
          simp [h]
        · exact ⟨(hname2 c h).2.1, (hname2 c h).2.2⟩)
    rw [hsub, strip_dropWhile_ws, hstm]
    rfl
  | some d =>
    obtain ⟨hd1, hd2⟩ := hdl d rfl
    have hdd : d.dropWhile isWsChar ≠ [] := strip_ne_nil_dropWhile d hd1
    have hd2' : ∀ c ∈ d, c ≠ ')' := fun c hc => (hd2 c hc).1
    have harr : (txt ++ (" (Owner: ".toList) ++ name ++
        (match (some d : Option Str) with
         | some d2 => (", Deadline: ".toList) ++ d2
         | none => ([] : Str)) ++ (")".toList) : Str) =
        (txt ++ [' ']) ++
          (("(Owner: ".toList) ++ name ++ (", Deadline: ".toList) ++ d ++ (')' :: [])) := by
      dsimp only
      simp only [List.append_assoc]
      all_goals rfl
    rw [harr]
    unfold extract_owner_deadline
    have hsearch : searchOwnerDeadline ((txt ++ [' ']) ++
        (("(Owner: ".toList) ++ name ++ (", Deadline: ".toList) ++ d ++ (')' :: []))) =
        some (name.dropWhile isWsChar, some (d.dropWhile isWsChar)) := by
      rw [searchOwnerDeadline_app (txt ++ [' ']) _ (by
        intro c hc
        rcases List.mem_append.mp hc with h | h
        · exact htxt c h
        · simp at h
          simp [h])]
      have hmatch := matchOwnerAt_pos_dl name d [] hnd hn2 hdd hd2'
      have harr4 : ((("(Owner: ".toList) ++ name ++ (", Deadline: ".toList) ++ d ++ (')' :: [])) : Str) =
          '(' :: (("Owner: ".toList) ++ (name ++ ((", Deadline: ".toList) ++ (d ++ (')' :: []))))) := by
        simp only [List.append_assoc, List.cons_append]
        all_goals rfl
      rw [harr4] at hmatch
      rw [harr4]
      exact searchOwnerDeadline_of_match '('
        (("Owner: ".toList) ++ (name ++ ((", Deadline: ".toList) ++ (d ++ (')' :: [])))))
        (name.dropWhile isWsChar) (some (d.dropWhile isWsChar)) [] hmatch
    rw [hsearch]
    dsimp only
    have hsub : subOwner ((txt ++ [' ']) ++
        (("(Owner: ".toList) ++ name ++ (", Deadline: ".toList) ++ d ++ (')' :: []))) =
        dropTrailWs txt := by
      have harr3 : (((txt ++ [' ']) ++
          (("(Owner: ".toList) ++ name ++ (", Deadline: ".toList) ++ d ++ (')' :: []))) : Str) =
          txt ++ ((' ' :: ("(Owner:".toList)) ++
            ((([' '] ++ name ++ ((", Deadline: ".toList) ++ d))) ++ [')'])) := by
        simp only [List.append_assoc, List.cons_append, List.nil_append]
        all_goals rfl
      rw [harr3]
      exact hsubm ([' '] ++ name ++ ((", Deadline: ".toList) ++ d)) (by
        intro c hc
        rcases List.mem_append.mp hc with h | h
        · rcases List.mem_append.mp h with h2 | h2
          · simp at h2
            simp [h2]
          · exact ⟨(hname2 c h2).2.1, (hname2 c h2).2.2⟩
        · rcases List.mem_append.mp h with h2 | h2
          · have e : (", Deadline: ".toList : Str) =
                [',', ' ', 'D', 'e', 'a', 'd', 'l', 'i', 'n', 'e', ':', ' '] := rfl
            rw [e] at h2
            simp only [List.mem_cons, List.not_mem_nil, or_false] at h2
            rcases h2 with rfl | rfl | rfl | rfl | rfl | rfl | rfl | rfl | rfl | rfl | rfl | rfl <;>
              exact ⟨by decide, by decide⟩
          · exact hd2 c h2)
    rw [hsub, strip_dropWhile_ws, hstm]
    have hne2 : ¬(stripStr (d.dropWhile isWsChar) = []) := by
      rw [strip_dropWhile_ws]
      exact hd1
    rw [if_neg hne2, strip_dropWhile_ws]
    rfl

/-- Witness for C3 at the claim's concrete example. -/
theorem C3_extract_witness :
    extract_owner_deadline ("Fix bug (Owner: Jane, Deadline: Friday)".toList) =
      (("Fix bug".toList), some ("Jane".toList), some ("Friday".toList)) := by
  have h := C3_extract ("Fix bug".toList) ("Jane".toList) (some ("Friday".toList))
    (by decide) (by decide) (by decide)
    (by intro d hd; cases hd; exact ⟨by decide, by decide⟩)
  exact h.trans (by decide)

theorem applyPoint_decisions_mono (st : PartState) (p c : Str)
    (h : c ∈ st.decisions) : c ∈ (applyPoint st p).decisions := by
  simp only [applyPoint]
  cases categorize_point p <;> simp [h]

theorem partitionGo_decisions_mono (ps : List Str) : ∀ (st : PartState) (c : Str),
    c ∈ st.decisions → c ∈ (partitionGo st ps).decisions := by
  induction ps with
  | nil => intro st c h; exact h
  | cons q qs ih =>
    intro st c h
    exact ih (applyPoint st q) c (applyPoint_decisions_mono st q c h)

theorem partitionGo_decisions_of_mem (ps : List Str) : ∀ (st : PartState) (p c : Str),
    p ∈ ps → categorize_point p = .decision c → c ∈ (partitionGo st ps).decisions := by
  induction ps with
  | nil => intro st p c hp; simp at hp
  | cons q qs ih =>
    intro st p c hp hc
    rcases List.mem_cons.mp hp with rfl | hp2
    · show c ∈ (partitionGo (applyPoint st p) qs).decisions
      apply partitionGo_decisions_mono
      simp only [applyPoint]
      rw [hc]
      simp
    · exact ih (applyPoint st q) p c hp2 hc

theorem matchBold_pos_multiline (label content : Str) (hl : label ≠ [])
    (hstar : ∀ c ∈ label, c ≠ '*') (hlead : content.dropWhile isWsChar = content) :
    matchBold (("**".toList) ++ label ++ ("**: ".toList) ++ content) =
      some (label, content.takeWhile (fun c => decide (c ≠ '\n'))) := by
  have estar : ("**".toList : Str) = ['*', '*'] := rfl
  have emid : ("**: ".toList : Str) = ['*', '*', ':', ' '] := rfl
  obtain ⟨c0, lt, rfl⟩ : ∃ c0 lt, label = c0 :: lt := by
    cases label with
    | nil => exact absurd rfl hl
    | cons a b => exact ⟨a, b, rfl⟩
  have harr : (("**".toList) ++ (c0 :: lt) ++ ("**: ".toList) ++ content : Str) =
      '*' :: '*' :: (c0 :: lt ++ (['*', '*', ':', ' '] ++ content)) := by
    rw [estar, emid]
    simp [List.append_assoc]
  rw [harr]
  have hpred : ∀ c ∈ (c0 :: lt : Str), (fun c => decide (c ≠ '*')) c = true := by
    intro c hc
    simp [hstar c hc]
  have h1 : ((c0 :: lt : Str) ++ (['*', '*', ':', ' '] ++ content)).takeWhile
      (fun c => decide (c ≠ '*')) = c0 :: lt := by
    rw [takeWhile_app_all _ _ _ hpred]
    simp only [List.cons_append, List.nil_append]
    rw [takeWhile_cons_neg _ _ _ (by simp)]
    simp
  have h2 : ((c0 :: lt : Str) ++ (['*', '*', ':', ' '] ++ content)).dropWhile
      (fun c => decide (c ≠ '*')) = '*' :: '*' :: ':' :: ' ' :: content := by
    rw [dropWhile_app_all _ _ _ hpred]
    simp only [List.cons_append, List.nil_append]
    rw [dropWhile_cons_neg _ _ _ (by simp)]
  have h3 : (' ' :: content : Str).dropWhile isWsChar = content := by
    show (([' '] : Str) ++ content).dropWhile isWsChar = content
    rw [dropWhile_app_all _ _ _ (by intro c hc; simp at hc; simp [hc, isWsChar])]
    exact hlead
  unfold matchBold
  simp only [h1, h2, h3]
  simp

set_option maxRecDepth 8192 in
/-- C5 (counterexample): the decisions findall runs under DOTALL, so a
decision item can span several lines; its full text is duplicated into
the key-points list, but the renderer's bold-prefix match stops at the
end of the line, so only the first line reaches the decisions list — the
same decision text does not appear in both places. -/
theorem C5_counterexample :
    decisionItems (splitSections ("## Decisions Made\n1. First line\ncontinued".toList)) =
      [("First line\ncontinued".toList)] ∧
    ("**Decision**: First line\ncontinued".toList) ∈
      (parse_bedrock_response ("## Decisions Made\n1. First line\ncontinued".toList)).2.1 ∧
    (partitionKeyPoints (parse_bedrock_response
        ("## Decisions Made\n1. First line\ncontinued".toList)).2.1).decisions =
      [("First line".toList)] ∧
    ("First line\ncontinued".toList) ∉
      (partitionKeyPoints (parse_bedrock_response
        ("## Decisions Made\n1. First line\ncontinued".toList)).2.1).decisions := by
  decide

/-- C5 (amended): every decision item extracted from the decisions
section is duplicated in full into the key-points list under the bold
Decision category; the decisions list the renderer collects for its
Decisions Made section then receives the item truncated at its first
newline and re-stripped — identical to the full item exactly when the
stripped item is single-line. -/
theorem C5_amended (text d : Str)
    (hmem : d ∈ decisionItems (splitSections text)) :
    (("**Decision**: ".toList) ++ stripStr d) ∈ (parse_bedrock_response text).2.1 ∧
    stripStr ((stripStr d).takeWhile (fun c => decide (c ≠ '\n'))) ∈
      (partitionKeyPoints (parse_bedrock_response text).2.1).decisions := by
  have hk : (("**Decision**: ".toList) ++ stripStr d) ∈
      structuredKeyPoints (splitSections text) := by
    unfold structuredKeyPoints
    refine List.mem_append.mpr (Or.inl (List.mem_append.mpr (Or.inl
      (List.mem_append.mpr (Or.inl (List.mem_append.mpr (Or.inr ?_)))))))
    exact List.mem_map.mpr ⟨d, hmem, rfl⟩
  have hne : structuredKeyPoints (splitSections text) ≠ [] := List.ne_nil_of_mem hk
  have hcond : ¬(extractSummary (splitSections text) = [] ∧
      structuredKeyPoints (splitSections text) = [] ∧
      extractActionItems (splitSections text) = []) := fun hc => hne hc.2.1
  have h1 : (parse_bedrock_response text).2.1 = structuredKeyPoints (splitSections text) := by
    unfold parse_bedrock_response
    rw [if_neg hcond]
  have hcat : categorize_point (("**Decision**: ".toList) ++ stripStr d) =
      .decision (stripStr ((stripStr d).takeWhile (fun c => decide (c ≠ '\n')))) := by
    have hb2 : matchBold (("**Decision**: ".toList) ++ stripStr d) =
        some (("Decision".toList), (stripStr d).takeWhile (fun c => decide (c ≠ '\n'))) :=
      matchBold_pos_multiline ("Decision".toList) (stripStr d) (by decide) (by decide)
        (dropWhile_ws_of_strip_eq (stripStr d) (strip_idem d))
    unfold categorize_point
    rw [hb2]
    dsimp only
    rw [strip_of_no_ws ("Decision".toList) (by decide)]
    have hlow : lowerStr ("Decision".toList) = ("decision".toList) := by decide
    rw [hlow]
    simp
  constructor
  · rw [h1]
    exact hk
  · rw [h1]
    exact partitionGo_decisions_of_mem (structuredKeyPoints (splitSections text))
      ⟨[], [], [], [], [], []⟩ (("**Decision**: ".toList) ++ stripStr d)
      (stripStr ((stripStr d).takeWhile (fun c => decide (c ≠ '\n')))) hk hcat

/-- Witness for C5 (amended) at the multi-line decision item. -/
theorem C5_amended_witness :
    (("**Decision**: ".toList) ++ stripStr ("First line\ncontinued".toList)) ∈
      (parse_bedrock_response ("## Decisions Made\n1. First line\ncontinued".toList)).2.1 ∧
    stripStr ((stripStr ("First line\ncontinued".toList)).takeWhile
        (fun c => decide (c ≠ '\n'))) ∈
      (partitionKeyPoints (parse_bedrock_response
        ("## Decisions Made\n1. First line\ncontinued".toList)).2.1).decisions := by
  exact C5_amended ("## Decisions Made\n1. First line\ncontinued".toList)
    ("First line\ncontinued".toList) (by decide)

theorem dictInsert_keys {β : Type} (m : List (Str × β)) (k0 : Str) (v : β) (k : Str)
    (h : k ∈ (dictInsert m k0 v).map Prod.fst) : k ∈ m.map Prod.fst ∨ k = k0 := by
  unfold dictInsert at h
  split at h
  · rw [List.map_map] at h
    rcases List.mem_map.mp h with ⟨p, hp, hpk⟩
    by_cases hpe : p.1 = k0
    · right
      rw [← hpk]
      simp [Function.comp, hpe]
    · left
      rw [← hpk]
      simp only [Function.comp, hpe, if_false]
      exact List.mem_map.mpr ⟨p, hp, rfl⟩
  · rw [List.map_append] at h
    rcases List.mem_append.mp h with h1 | h1
    · exact Or.inl h1
    · right
      simpa using h1

theorem sectionsFold_keys (ls : List Str) : ∀ (secs : List (Str × Str)) (cs : Option Str)
    (cc : List Str) (k : Str), k ∈ (sectionsFold ls secs cs cc).map Prod.fst →
    k ∈ secs.map Prod.fst ∨ (∃ n, cs = some n ∧ k = lowerStr n) ∨
      k ∈ (ls.filter isHeadingLine).map (fun l => lowerStr (headingName l)) := by
  induction ls with
  | nil =>
    intro secs cs cc k h
    simp only [sectionsFold] at h
    split at h
    · rcases dictInsert_keys _ _ _ _ h with h1 | h1
      · exact Or.inl h1
      · rename_i hcond
        cases hcs : cs with
        | none => rw [hcs] at hcond; exact absurd hcond.1 (by simp [optTruthy])
        | some n =>
          refine Or.inr (Or.inl ⟨n, rfl, ?_⟩)
          rw [hcs] at h1
          simpa using h1
    · exact Or.inl h
  | cons l ls ih =>
    intro secs cs cc k h
    simp only [sectionsFold] at h
    by_cases hl : isHeadingLine l = true
    · rw [if_pos hl] at h
      have hscan : ((l :: ls).filter isHeadingLine).map
          (fun l2 => lowerStr (headingName l2)) =
          lowerStr (headingName l) :: (ls.filter isHeadingLine).map
            (fun l2 => lowerStr (headingName l2)) := by
        rw [List.filter_cons_of_pos hl]
        simp
      split at h
      · rcases ih _ _ _ k h with h1 | h1 | h1
        · rcases dictInsert_keys _ _ _ _ h1 with h2 | h2
          · exact Or.inl h2
          · rename_i hcond
            cases hcs : cs with
            | none => rw [hcs] at hcond; exact absurd hcond.1 (by simp [optTruthy])
            | some n =>
              refine Or.inr (Or.inl ⟨n, rfl, ?_⟩)
              rw [hcs] at h2
              simpa using h2
        · rcases h1 with ⟨n, hn, hk⟩
          cases hn
          refine Or.inr (Or.inr ?_)
          rw [hscan]
          simp [hk]
        · refine Or.inr (Or.inr ?_)
          rw [hscan]
          simp [h1]
      · rcases ih _ _ _ k h with h1 | h1 | h1
        · exact Or.inl h1
        · rcases h1 with ⟨n, hn, hk⟩
          cases hn
          refine Or.inr (Or.inr ?_)
          rw [hscan]
          simp [hk]
        · refine Or.inr (Or.inr ?_)
          rw [hscan]
          simp [h1]
    · rw [if_neg hl] at h
      have hscan : ((l :: ls).filter isHeadingLine).map
          (fun l2 => lowerStr (headingName l2)) =
          (ls.filter isHeadingLine).map (fun l2 => lowerStr (headingName l2)) := by
        rw [List.filter_cons_of_neg (by simpa using hl)]
      rw [hscan]
      split at h
      · exact ih _ _ _ k h
      · exact ih _ _ _ k h

/-- C7: the splitter records a heading only when at least one content line
follows it before the next heading, so the recorded key set can be a
strict subset of the independent scan: for the single-heading text
`# A` the splitter records nothing while the scan finds "a". -/
theorem C7_counterexample :
    splitSections ("# A".toList) = [] ∧
    headingScan ("# A".toList) = [("a".toList)] := by
  decide

/-- C7 (amended): no spurious keys — every heading key recorded by the
section-splitting pass is among the lower-cased heading names found by the
independent simple scan (the converse fails for headings with no content
lines, as the counterexample shows). -/
theorem C7_keys_subset (text k : Str)
    (h : k ∈ (splitSections text).map Prod.fst) : k ∈ headingScan text := by
  rcases sectionsFold_keys (splitNl text) [] none [] k h with h1 | h1 | h1
  · simp at h1
  · rcases h1 with ⟨n, hn, _⟩
    cases hn
  · exact h1

/-- Witness for C7 (amended) at a concrete two-section completion. -/
theorem C7_keys_subset_witness :
    ("summary".toList) ∈ headingScan ("## Summary\nHi there.\n\n## Risks\n- r1".toList) := by
  exact C7_keys_subset ("## Summary\nHi there.\n\n## Risks\n- r1".toList) ("summary".toList)
    (by decide)

theorem splitNl_ne_nil (l : Str) : splitNl l ≠ [] := by
  cases l with
  | nil => simp [splitNl]
  | cons c t =>
    simp only [splitNl]
    split
    · simp
    · split <;> simp

theorem splitNl_append (a b : Str) : splitNl (a ++ ('\n' :: b)) = splitNl a ++ splitNl b := by
  induction a with
  | nil => simp [splitNl]
  | cons c t ih =>
    by_cases hc : c = '\n'
    · subst hc
      simp only [List.cons_append, splitNl, if_pos rfl, List.append_eq]
      rw [ih]
      rfl
    · simp only [List.cons_append, splitNl, if_neg hc, List.append_eq]
      rw [ih]
      obtain ⟨p0, ps0, hsp⟩ : ∃ p0 ps0, splitNl t = p0 :: ps0 := by
        cases hs : splitNl t with
        | nil => exact absurd hs (splitNl_ne_nil t)
        | cons a2 b2 => exact ⟨a2, b2, rfl⟩
      rw [hsp]
      rfl

theorem sectionsFold_skip_pre (pre rest : List Str)
    (h : ∀ l ∈ pre, isHeadingLine l = false) :
    sectionsFold (pre ++ rest) [] none [] = sectionsFold rest [] none [] := by
  induction pre with
  | nil => rfl
  | cons l t ih =>
    rw [List.cons_append]
    simp only [sectionsFold]
    rw [if_neg (by simp [h l (by simp)]), if_neg (by simp [optTruthy])]
    exact ih (fun x hx => h x (by simp [hx]))

/-- C10: lines that precede the first markdown heading are assigned to no
section: the section map of a completion whose first lines contain no
heading equals the section map of the text after those lines, so such
lines contribute to no structured summary, key point, action item, or
other bucket (only the whole-document fallback, which reads the raw text,
can surface them). -/
theorem C10_pre_heading (pre rest : Str)
    (h : ∀ l ∈ splitNl pre, isHeadingLine l = false) :
    splitSections (pre ++ ('\n' :: rest)) = splitSections rest := by
  unfold splitSections
  rw [splitNl_append, sectionsFold_skip_pre _ _ h]

/-- Witness for C10 at a concrete completion with pre-heading chatter. -/
theorem C10_pre_heading_witness :
    splitSections ("Sure, here are your notes.\n## Summary\nBody.".toList) =
      splitSections ("## Summary\nBody.".toList) := by
  exact C10_pre_heading ("Sure, here are your notes.".toList) ("## Summary\nBody.".toList)
    (by decide)

theorem tryOwnershipPatterns_mem (text : Str) (names : List Str) (n : Str)
    (h : tryOwnershipPatterns text names = some n) : n ∈ names := by
  unfold tryOwnershipPatterns at h
  split at h
  · rename_i n2 heq
    injection h with h2
    subst h2
    split at heq
    · exact List.mem_of_find?_eq_some heq
    · exact Option.noConfusion heq
  · split at h
    · exact List.mem_of_find?_eq_some h
    · exact Option.noConfusion h

theorem mem_participant_names (participants : List Participant) (n : Str)
    (h : n ∈ (participants.filter
        (fun p => pyTruthy p.nameVal || pyTruthy p.idVal)).map (participantName [])) :
    ∃ p ∈ participants, n = participantName [] p := by
  obtain ⟨p, hp, rfl⟩ := List.mem_map.mp h
  exact ⟨p, (List.mem_filter.mp hp).1, rfl⟩

theorem infer_owner_mem (text : Str) (participants : List Participant) (n : Str)
    (h : infer_owner_from_text text participants = some n) :
    n ∈ (participants.filter
        (fun p => pyTruthy p.nameVal || pyTruthy p.idVal)).map (participantName []) := by
  unfold infer_owner_from_text at h
  split at h
  · exact Option.noConfusion h
  · dsimp only at h
    split at h
    · rename_i n2 heq
      injection h with h2
      subst h2
      exact tryOwnershipPatterns_mem _ _ _ heq
    · exact List.mem_of_find?_eq_some h

/-- C9: without an explicit annotation, the inferred owner is either unset
or the display name of one of the supplied participants (the
name-or-id string used by the inference pass); the extractor never
produces a name absent from the known participant list. -/
theorem C9_owner_from_participants (text : Str) (participants : List Participant) :
    infer_owner_from_text text participants = none ∨
      ∃ p ∈ participants, infer_owner_from_text text participants =
        some (participantName [] p) := by
  cases hres : infer_owner_from_text text participants with
  | none => exact Or.inl rfl
  | some n =>
    obtain ⟨p, hpmem, hn⟩ := mem_participant_names participants n
      (infer_owner_mem text participants n hres)
    subst hn
    exact Or.inr ⟨p, hpmem, rfl⟩

theorem exbind_ok {α β : Type} (a : α) (f : α → Except Str β) :
    (Except.ok a >>= f) = f a := rfl

theorem memberKey_lookup (m : List (Str × Str)) (k : Str) :
    memberKey m k = (lookupDict m k).isSome := by
  unfold memberKey lookupDict
  cases m.find? (fun p => decide (p.1 = k)) <;> rfl

theorem pyGetItem_eq (m : List (Str × Str)) (k : Str) (v : Str)
    (h : lookupDict m k = some v) : pyGetItem m k = .ok v := by
  unfold pyGetItem
  rw [h]

theorem extractSummaryE_ok (sections : List (Str × Str)) (ks : List Str) :
    extractSummaryE sections ks = .ok ((findFirstKey sections ks).getD []) := by
  induction ks with
  | nil => rfl
  | cons k ks ih =>
    unfold extractSummaryE findFirstKey
    cases hl : lookupDict sections k with
    | some v =>
      rw [if_pos (by rw [memberKey_lookup, hl]; rfl), pyGetItem_eq sections k v hl]
      rfl
    | none =>
      rw [if_neg (by rw [memberKey_lookup, hl]; simp)]
      exact ih

theorem extractKeyPointsE_ok (sections : List (Str × Str)) (ks : List Str) :
    extractKeyPointsE sections ks = .ok
      (match findFirstKey sections ks with
       | none => []
       | some body =>
         match keyPointsFromSubs (splitSubsections body) with
         | [] => (findBullets body).map stripStr
         | kp => kp) := by
  induction ks with
  | nil => rfl
  | cons k ks ih =>
    unfold extractKeyPointsE findFirstKey
    cases hl : lookupDict sections k with
    | some v =>
      rw [if_pos (by rw [memberKey_lookup, hl]; rfl), pyGetItem_eq sections k v hl]
      simp only [exbind_ok]
      cases hkp : keyPointsFromSubs (splitSubsections v) with
      | nil => rfl
      | cons a b => rfl
    | none =>
      rw [if_neg (by rw [memberKey_lookup, hl]; simp)]
      exact ih

theorem extractActionItemsE_ok (sections : List (Str × Str)) (ks : List Str) :
    extractActionItemsE sections ks = .ok
      (match findFirstKey sections ks with
       | none => []
       | some body =>
         match actionsFromSubs (splitSubsections body) with
         | [] => (findItems body).map stripStr
         | ai => ai) := by
  induction ks with
  | nil => rfl
  | cons k ks ih =>
    unfold extractActionItemsE findFirstKey
    cases hl : lookupDict sections k with
    | some v =>
      rw [if_pos (by rw [memberKey_lookup, hl]; rfl), pyGetItem_eq sections k v hl]
      simp only [exbind_ok]
      cases hai : actionsFromSubs (splitSubsections v) with
      | nil => rfl
      | cons a b => rfl
    | none =>
      rw [if_neg (by rw [memberKey_lookup, hl]; simp)]
      exact ih

theorem firstNonemptyItemsE_ok (sections : List (Str × Str)) (ks : List Str) :
    firstNonemptyItemsE sections ks = .ok (firstNonemptyItems sections ks) := by
  induction ks with
  | nil => rfl
  | cons k ks ih =>
    unfold firstNonemptyItemsE firstNonemptyItems
    cases hl : lookupDict sections k with
    | some v =>
      rw [if_pos (by rw [memberKey_lookup, hl]; rfl), pyGetItem_eq sections k v hl]
      simp only [exbind_ok]
      cases hit : findItems v with
      | nil => exact ih
      | cons a b => rfl
    | none =>
      rw [if_neg (by rw [memberKey_lookup, hl]; simp)]
      exact ih

theorem parse_bedrock_agrees (text : Str) :
    parse_bedrock_responseE text = Except.ok (parse_bedrock_response text) := by
  simp only [parse_bedrock_responseE, parse_bedrock_response, extractSummary,
    structuredKeyPoints, decisionItems, extractKeyPoints, extractActionItems,
    fallbackSummary, extractSummaryE_ok, extractKeyPointsE_ok,
    extractActionItemsE_ok, firstNonemptyItemsE_ok, exbind_ok]
  split_ifs with hcond hpar
  · cases hfil : (splitPara text).filter (fun p => decide (stripStr p ≠ [])) with
    | nil => exact absurd hfil hpar
    | cons a t => rfl
  · rw [not_not] at hpar
    rw [hpar]
    rfl
  · rfl

theorem sub_refl_app (pat t : Str) : pat <:+: pat ++ t := ⟨[], t, by simp⟩

theorem sub_app_right (pat l1 l2 : Str) (h : pat <:+: l2) : pat <:+: l1 ++ l2 := by
  obtain ⟨s, t, rfl⟩ := h
  exact ⟨l1 ++ s, t, by simp [List.append_assoc]⟩

/-- C2: the parser never raises — the exception-instrumented model, in
which every Python dictionary subscript and the fallback's first-paragraph
subscript raise on a missing key or empty list, returns `ok` of the pure
parser's triple on every input — and the renderer is a total function
whose output contains the fixed markdown skeleton for every combination
of summary, key points, action items, and participants. -/
theorem C2_no_raise :
    (∀ text : Str, parse_bedrock_responseE text = Except.ok (parse_bedrock_response text)) ∧
    (∀ (transcript summary : Str) (key_points action_items : List Str)
        (participants : List Participant) (has_speaker_segments : Bool)
        (date_str gen_ts : Str),
      containsSub (format_enhanced_meeting_notes transcript summary key_points
          action_items participants has_speaker_segments date_str gen_ts)
        ("# Meeting Notes - ".toList) = true ∧
      containsSub (format_enhanced_meeting_notes transcript summary key_points
          action_items participants has_speaker_segments date_str gen_ts)
        ("## Summary\n\n".toList) = true ∧
      containsSub (format_enhanced_meeting_notes transcript summary key_points
          action_items participants has_speaker_segments date_str gen_ts)
        ("## Key Takeaways\n\n".toList) = true ∧
      containsSub (format_enhanced_meeting_notes transcript summary key_points
          action_items participants has_speaker_segments date_str gen_ts)
        ("## Full Transcript\n\n".toList) = true) := by
  constructor
  · exact parse_bedrock_agrees
  · intro transcript summary key_points action_items participants hs d g
    refine ⟨?_, ?_, ?_, ?_⟩ <;>
      (unfold containsSub
       apply decide_eq_true
       simp only [format_enhanced_meeting_notes, List.append_assoc]
       repeat (first | exact sub_refl_app _ _ | apply sub_app_right))
